import Mathlib

/-!
# gotk-gen: interface generator for gotk3 (`gen.go`)

A shallow embedding of the declaration-extraction and type-rendering engine of
`gen.go`, followed by theorems about it.

Conventions of the embedding

* Go strings are Lean strings.  The two places where the source looks at bytes
  (`nm[6:]` and the `<` of `ByName.Less`) are modelled on the UTF-8 encoding of
  the characters, see `sliceFrom` and `strLess`.
* A Go panic (unsupported node, failed type assertion, index or slice out of
  range) is the result `none`.
* The package-level maps are explicit arguments: `hasName` is the lookup
  function of the map of the same name, `currentImports` is threaded through the
  renderer as a list of keys, `knownPrefixes` is the constant table that `init`
  fills in.
* A nil slice and an empty slice are both the empty list; a nil pointer to a
  field list is `none`.
-/

namespace GotkGen

/-! ## Declaration trees (`go/ast`) -/

mutual
/-- Type expressions and the other expression nodes of `go/ast` that can stand
where the generator looks. -/
inductive Expr where
  | ident (name : String)
  | starExpr (x : Expr)
  | selectorExpr (x : Expr) (sel : String)
  | mapType (key : Expr) (value : Expr)
  | interfaceType (methods : List Field)
  | arrayType (len : Option Expr) (elt : Expr)
  | ellipsis (elt : Option Expr)
  | funcType (ft : FuncType)
  | structType (fields : Option FieldList)
  | basicLit (value : String)
  | parenExpr (x : Expr)
  | indexExpr (x : Expr) (index : Expr)
  | chanType (value : Expr)
/-- Node `ast.FuncType`: `Params` is never nil, `Results` may be. -/
inductive FuncType where
  | mk (params : FieldList) (results : Option FieldList)
/-- Node `ast.FieldList`, handled through a pointer that may be nil (`none`). -/
inductive FieldList where
  | mk (list : List Field)
/-- Node `ast.Field`: the names declared together and their common type. -/
inductive Field where
  | mk (names : List String) (type : Expr)
end

/-- Node `ast.FuncDecl`, without the body. -/
structure FuncDecl where
  recv : Option FieldList
  name : String
  type : FuncType

/-- Record `typeThing` of the source. -/
structure TypeThing where
  name : String
  definition : Option (Option FieldList)
  parents : List Expr
  funcs : List FuncDecl

/-! ## Strings -/

/-- Go `s[n:]` on the UTF-8 bytes of `s`: `none` is the out-of-range panic,
`some none` is a cut in the middle of a character (a byte string that is not
the encoding of any text, hence equal to no identifier), `some (some t)` is the
remaining text. -/
def sliceFrom : Nat → List Char → Option (Option String)
  | 0, cs => some (some ⟨cs⟩)
  | _ + 1, [] => none
  | n + 1, c :: cs =>
    if c.utf8Size ≤ n + 1 then sliceFrom (n + 1 - c.utf8Size) cs else some none

/-- Go `strings.Split(s, ".")[0]`: the text before the first dot. -/
def splitFirst (s : String) : String :=
  ⟨s.data.takeWhile (fun c => c != '.')⟩

/-- Go `strings.Replace(s, old, new, 1)` on character lists. -/
def replaceOnceAux (old new : List Char) : List Char → List Char
  | [] => if old.isEmpty then new else []
  | c :: cs =>
    if old.isPrefixOf (c :: cs) then new ++ (c :: cs).drop old.length
    else c :: replaceOnceAux old new cs

/-- Go `strings.Replace(s, old, new, 1)`. -/
def replaceOnce (s old new : String) : String :=
  ⟨replaceOnceAux old.data new.data s.data⟩

/-- Go `strings.Join(elems, sep)`. -/
def stringsJoin : List String → String → String
  | [], _ => ""
  | [a], _ => a
  | a :: b :: rest, sep => a ++ sep ++ stringsJoin (b :: rest) sep

/-- Go `a < b` on strings: lexicographic on the UTF-8 bytes, which for encoded
text is the lexicographic order of the code points. -/
def strLess (a b : String) : Prop :=
  List.Lex (fun x y : Char => x < y) a.data b.data

instance strLessDecidable (a b : String) : Decidable (strLess a b) := by
  unfold strLess; infer_instance

/-! ## Package-level tables -/

/-- Table `knownPrefixes` as left by `init`. -/
def knownPrefixes (s : String) : Bool :=
  s == "cairo" || s == "gdk" || s == "gtk" || s == "glib" || s == "pango"

/-- Keys of the map `currentImports`. -/
abbrev Imports := List String

/-- Statement `currentImports[pref] = true`. -/
def recordImport (imp : Imports) (pref : String) : Imports :=
  if pref ∈ imp then imp else imp ++ [pref]

/-! ## Type renderer -/

/-- Function `arrayType` of the source. -/
def arrayType : Option Expr → Option String
  | none => some ""
  | some (.ellipsis _) => some "..."
  | some _ => none

/-- Condition `(withIface && hasName[nm[6:]]) || hasName[nm]` of the pointer
case; `none` when the slice expression panics. -/
def starKnown (hasName : String → Bool) (withIface : Bool) (nm : String) : Option Bool :=
  if withIface then
    match sliceFrom 6 nm.data with
    | none => none
    | some none => some (hasName nm)
    | some (some t) => some (hasName t || hasName nm)
  else some (hasName nm)

/-- Condition of the second test of the pointer case, on the known prefixes. -/
def starExternal (withIfaceOther : Bool) (nm : String) : Bool :=
  (withIfaceOther && knownPrefixes (replaceOnce (splitFirst nm) "_iface" ""))
    || knownPrefixes (splitFirst nm)

/-- The three-way format at the end of `genResults`. -/
def formatResults : List String → String
  | [] => ""
  | [r] => " " ++ r
  | rs => " (" ++ stringsJoin rs ", " ++ ")"

mutual
/-- Function `genType` of the source. -/
def genType (hasName : String → Bool) :
    Expr → Bool → Bool → Imports → Option (String × Imports)
  | .ident name, withIface, _, imp =>
    if hasName name then
      if withIface then some ("iface." ++ name, imp) else some (name, imp)
    else some (name, imp)
  | .starExpr x, withIface, withIfaceOther, imp =>
    match genType hasName x withIface withIfaceOther imp with
    | none => none
    | some (nm, imp1) =>
      match starKnown hasName withIface nm with
      | none => none
      | some true => some (nm, imp1)
      | some false =>
        if starExternal withIfaceOther nm then some (nm, imp1)
        else some ("*" ++ nm, imp1)
  | .selectorExpr x sel, _, withIfaceOther, imp =>
    match genType hasName x false false imp with
    | none => none
    | some (pref, imp1) =>
      let pref2 := if knownPrefixes pref && withIfaceOther then pref ++ "_iface" else pref
      some (pref2 ++ "." ++ sel, recordImport imp1 pref2)
  | .mapType key value, withIface, withIfaceOther, imp =>
    match genType hasName key withIface withIfaceOther imp with
    | none => none
    | some (k, imp1) =>
      match genType hasName value withIface withIfaceOther imp1 with
      | none => none
      | some (v, imp2) => some ("map[" ++ k ++ "]" ++ v, imp2)
  | .interfaceType _, _, _, imp => some ("interface\x7b\x7d", imp)
  | .arrayType len elt, withIface, withIfaceOther, imp =>
    match arrayType len with
    | none => none
    | some l =>
      match genType hasName elt withIface withIfaceOther imp with
      | none => none
      | some (t, imp1) => some ("[" ++ l ++ "]" ++ t, imp1)
  | .ellipsis none, _, _, _ => none
  | .ellipsis (some elt), withIface, withIfaceOther, imp =>
    match genType hasName elt withIface withIfaceOther imp with
    | none => none
    | some (t, imp1) => some ("..." ++ t, imp1)
  | .funcType ft, withIface, withIfaceOther, imp =>
    match genFuncType hasName ft false withIface withIfaceOther imp with
    | none => none
    | some (t, imp1) => some ("func" ++ t, imp1)
  | .structType _, _, _, _ => none
  | .basicLit _, _, _, _ => none
  | .parenExpr _, _, _, _ => none
  | .indexExpr _ _, _, _, _ => none
  | .chanType _, _, _, _ => none
termination_by structural e => e
/-- Function `genField` of the source. -/
def genField (hasName : String → Bool) :
    Field → Bool → Bool → Bool → Imports → Option (String × Imports)
  | .mk names type, withNames, withIface, withIfaceOther, imp =>
    if withNames then
      match names with
      | [] => none
      | n :: _ =>
        match genType hasName type withIface withIfaceOther imp with
        | none => none
        | some (t, imp1) => some (n ++ " " ++ t, imp1)
    else genType hasName type withIface withIfaceOther imp
termination_by structural e => e
/-- The loop `for _, field := range f.List { result = append(result, genField(..)) }`
shared by `genResults` and `genParams`. -/
def genFields (hasName : String → Bool) :
    List Field → Bool → Bool → Bool → Imports → Option (List String × Imports)
  | [], _, _, _, imp => some ([], imp)
  | f :: fs, withNames, withIface, withIfaceOther, imp =>
    match genField hasName f withNames withIface withIfaceOther imp with
    | none => none
    | some (t, imp1) =>
      match genFields hasName fs withNames withIface withIfaceOther imp1 with
      | none => none
      | some (ts, imp2) => some (t :: ts, imp2)
termination_by structural e => e
/-- Function `genResults` of the source. -/
def genResults (hasName : String → Bool) :
    Option FieldList → Bool → Bool → Imports → Option (String × Imports)
  | none, _, _, imp => some (formatResults [], imp)
  | some (.mk l), withIface, withIfaceOther, imp =>
    match genFields hasName l false withIface withIfaceOther imp with
    | none => none
    | some (result, imp1) => some (formatResults result, imp1)
termination_by structural e => e
/-- Function `genParams` of the source. -/
def genParams (hasName : String → Bool) :
    FieldList → Bool → Bool → Bool → Imports → Option (String × Imports)
  | .mk l, withNames, withIface, withIfaceOther, imp =>
    match genFields hasName l withNames withIface withIfaceOther imp with
    | none => none
    | some (result, imp1) => some (stringsJoin result ", ", imp1)
termination_by structural e => e
/-- Function `genFuncType` of the source. -/
def genFuncType (hasName : String → Bool) :
    FuncType → Bool → Bool → Bool → Imports → Option (String × Imports)
  | .mk params results, withNames, withIface, withIfaceOther, imp =>
    match genParams hasName params withNames withIface withIfaceOther imp with
    | none => none
    | some (ps, imp1) =>
      match genResults hasName results withIface withIfaceOther imp1 with
      | none => none
      | some (rs, imp2) => some ("(" ++ ps ++ ")" ++ rs, imp2)
termination_by structural e => e
end

/-- Function `genFieldArg` of the source. -/
def genFieldArg : Field → Option String
  | .mk names type =>
    let suffix := match type with
      | .ellipsis _ => "..."
      | _ => ""
    match names with
    | [] => none
    | n :: _ => some (n ++ suffix)

/-- The loop of `genFuncArgs` over `fd.Params.List`. -/
def genFieldArgs : List Field → Option (List String)
  | [] => some []
  | f :: fs =>
    match genFieldArg f with
    | none => none
    | some a =>
      match genFieldArgs fs with
      | none => none
      | some as => some (a :: as)

/-- Function `genFuncArgs` of the source. -/
def genFuncArgs : FuncType → Option String
  | .mk (.mk params) _ =>
    match genFieldArgs params with
    | none => none
    | some result => some (stringsJoin result ", ")

/-- Function `genInterfaceDef` of the source. -/
def genInterfaceDef (hasName : String → Bool) (fd : FuncDecl) (imp : Imports) :
    Option (String × Imports) :=
  match genFuncType hasName fd.type false false true imp with
  | none => none
  | some (t, imp1) => some (fd.name ++ t, imp1)

/-- Function `genMethodDef` of the source. -/
def genMethodDef (hasName : String → Bool) (fd : FuncDecl) (imp : Imports) :
    Option (String × Imports) :=
  match genFuncType hasName fd.type true true true imp with
  | none => none
  | some (t, imp1) => some (fd.name ++ t, imp1)

/-- Field `Results` of a function type (`tp.Results`). -/
def FuncType.results : FuncType → Option FieldList
  | .mk _ results => results

/-- Field `Params.List` of a function type. -/
def FuncType.paramList : FuncType → List Field
  | .mk (.mk l) _ => l

/-- Function `genInvocation` of the source. -/
def genInvocation (fd : FuncDecl) : Option String :=
  let pref := if fd.type.results.isSome then "return " else ""
  match genFuncArgs fd.type with
  | none => none
  | some args => some (pref ++ fd.name ++ "(" ++ args ++ ")")

/-! ## Symbol table builder -/

/-- Go `token.Token` values a `GenDecl` may carry. -/
inductive Token where
  | IMPORT
  | CONST
  | TYPE
  | VAR
  deriving DecidableEq

/-- Node `ast.Spec`. -/
inductive Spec where
  | importSpec (path : String)
  | valueSpec (names : List String)
  | typeSpec (name : String) (type : Expr)

/-- Node `ast.Decl`. -/
inductive Decl where
  | badDecl
  | funcDecl (fd : FuncDecl)
  | genDecl (tok : Token) (specs : List Spec)

/-- One entry `fn, ff` of the map `pa.Files`. -/
structure File where
  name : String
  decls : List Decl

/-- One package of the map returned by `parser.ParseDir`, its files in the
order in which `range` visits them. -/
structure Package where
  files : List File

/-- Go map `map[string]*typeThing`, as the list of its key/value pairs. -/
abbrev Table := List (String × TypeThing)

/-- Method `addFunc` of the source. -/
def TypeThing.addFunc (tt : TypeThing) (f : FuncDecl) : TypeThing :=
  { tt with funcs := tt.funcs ++ [f] }

/-- Method `addParent` of the source. -/
def TypeThing.addParent (tt : TypeThing) (p : Expr) : TypeThing :=
  { tt with parents := tt.parents ++ [p] }

/-- Function `getOrCreateTypeThing` of the source: the map after the call and the
record the returned pointer points to. -/
def getOrCreateTypeThing (m : Table) (name : String) : Table × TypeThing :=
  match m.lookup name with
  | some v => (m, v)
  | none =>
    let v : TypeThing := { name := name, definition := none, parents := [], funcs := [] }
    (m ++ [(name, v)], v)

/-- Effect on the map of a mutation made through the pointer stored under `key`:
the record under that key becomes `v`. -/
def store (m : Table) (key : String) (v : TypeThing) : Table :=
  m.map (fun kv => if kv.1 == key then (kv.1, v) else kv)

/-- The loop of `addParents`. -/
def addParentsLoop : List Field → TypeThing → TypeThing
  | [], tt => tt
  | (.mk names type) :: rest, tt =>
    addParentsLoop rest (if names.isEmpty then tt.addParent type else tt)

/-- Function `addParents` of the source. -/
def addParents : Option FieldList → TypeThing → TypeThing
  | none, tt => tt
  | some (.mk l), tt => addParentsLoop l tt

/-- Go `ast.IsExported`: the first character is an upper-case letter; the Unicode
table of upper-case letters is the parameter `isUpper`. -/
def IsExported (isUpper : Char → Bool) (name : String) : Bool :=
  match name.data with
  | [] => false
  | c :: _ => isUpper c

/-- Lines 234 to 243 of the source, the name under which a function is filed;
`none` when `ss.Recv.List[0]` or the assertion `bla.X.(*ast.Ident)` panics. -/
def receiverName (ss : FuncDecl) : Option String :=
  match ss.recv with
  | none => some "<global>"
  | some (.mk []) => none
  | some (.mk ((.mk _ tt) :: _)) =>
    match tt with
    | .starExpr (.ident n) => some n
    | .starExpr _ => none
    | .ident n => some n
    | _ => some "<global>"

/-- The state the walk of `collectAllFrom` works on: the local map `typeThings`
and the package-level map `hasName`. -/
structure Walk where
  typeThings : Table
  hasName : String → Bool

/-- Case `*ast.FuncDecl` of the walk. -/
def collectFuncDecl (isUpper : Char → Bool) (st : Walk) (ss : FuncDecl) : Option Walk :=
  if IsExported isUpper ss.name then
    match receiverName ss with
    | none => none
    | some recv =>
      let r := getOrCreateTypeThing st.typeThings recv
      some { st with typeThings := store r.1 recv (r.2.addFunc ss) }
  else some st

/-- Body of the loop over `ss.Specs` for a `type` declaration. -/
def collectSpec (isUpper : Char → Bool) (st : Walk) : Spec → Option Walk
  | .typeSpec name type =>
    if IsExported isUpper name then
      match type with
      | .structType fields =>
        let r := getOrCreateTypeThing st.typeThings name
        let tt := addParents fields { r.2 with definition := some fields }
        some { typeThings := store r.1 name tt,
               hasName := fun n => n == name || st.hasName n }
      | _ => some st
    else some st
  | _ => none

/-- Body of the loop over `ff.Decls`. -/
def collectDecl (isUpper : Char → Bool) (st : Walk) : Decl → Option Walk
  | .funcDecl ss => collectFuncDecl isUpper st ss
  | .genDecl .TYPE specs => specs.foldlM (collectSpec isUpper) st
  | .genDecl _ _ => some st
  | .badDecl => some st

/-- Go `strings.Contains` on character lists. -/
def containsAux (sub : List Char) : List Char → Bool
  | [] => sub.isEmpty
  | c :: cs => sub.isPrefixOf (c :: cs) || containsAux sub cs

/-- The file-name filter of the walk: not a test file, not a version-gated one. -/
def fileSelected (fn : String) : Bool :=
  !("_test.go".data.isSuffixOf fn.data) && !(containsAux "_since_".data fn.data)

/-- Body of the loop over `pa.Files`. -/
def collectFile (isUpper : Char → Bool) (st : Walk) (f : File) : Option Walk :=
  if fileSelected f.name then f.decls.foldlM (collectDecl isUpper) st else some st

/-- Body of the loop over the packages. -/
def collectPackage (isUpper : Char → Bool) (st : Walk) (pa : Package) : Option Walk :=
  pa.files.foldlM (collectFile isUpper) st

/-- Function `collectAllFrom` of the source, on the result of `parser.ParseDir`;
`hasName` is the content of the package-level map when the walk starts. -/
def collectAllFrom (isUpper : Char → Bool) (hasName : String → Bool)
    (pkgs : List Package) : Option Walk :=
  pkgs.foldlM (collectPackage isUpper) { typeThings := [], hasName := hasName }

/-! ## Synthesizers -/

/-- Relation "`Less(b, a)` is false" of `ByName`: `a` may stand before `b`. -/
def byNameLE (a b : FuncDecl) : Prop := ¬ strLess b.name a.name

instance byNameLEDecidable : DecidableRel byNameLE := fun a b => by
  unfold byNameLE; infer_instance

/-- Call `sort.Sort(ByName(funcs))`.  The library routine is outside the
repository; it is taken to be the insertion sort that the library runs on short
slices, whose result is an ordered rearrangement of its input. -/
def sortByName (funcs : List FuncDecl) : List FuncDecl :=
  funcs.insertionSort byNameLE

/-- Relation "`Less(b, a)` is false" of `IfaceByName`. -/
def ifaceByNameLE (a b : TypeThing) : Prop := ¬ strLess b.name a.name

instance ifaceByNameLEDecidable : DecidableRel ifaceByNameLE := fun a b => by
  unfold ifaceByNameLE; infer_instance

/-- Function `sortedTypeThings` of the source. -/
def sortedTypeThings (typeThings : Table) : List TypeThing :=
  (typeThings.map Prod.snd).insertionSort ifaceByNameLE

/-- Table `importStrings` as left by `init`. -/
def importStrings (k : String) : Option String :=
  if k = "cairo" then some "\"github.com/gotk3/gotk3/cairo\""
  else if k = "gdk" then some "\"github.com/gotk3/gotk3/gdk\""
  else if k = "gtk" then some "\"github.com/gotk3/gotk3/gtk\""
  else if k = "glib" then some "\"github.com/gotk3/gotk3/glib\""
  else if k = "pango" then some "\"github.com/gotk3/gotk3/pango\""
  else if k = "cairo_iface" then some "cairo_iface \"github.com/gotk3/gotk3/cairo/iface\""
  else if k = "gdk_iface" then some "gdk_iface \"github.com/gotk3/gotk3/gdk/iface\""
  else if k = "gtk_iface" then some "gtk_iface \"github.com/gotk3/gotk3/gtk/iface\""
  else if k = "glib_iface" then some "glib_iface \"github.com/gotk3/gotk3/glib/iface\""
  else if k = "pango_iface" then some "pango_iface \"github.com/gotk3/gotk3/pango/iface\""
  else none

/-- The loop `for ki := range currentImports` that writes the import lines; the
list gives the order in which the keys are visited.  The language leaves the
order of a range over a map open, so the list stands for one possible visit;
what is proved of the lines is proved of their set, not of their order. -/
def writeImports : List String → String → String
  | [], realOut => realOut
  | ki :: rest, realOut =>
    let is := match importStrings ki with
      | some v => v
      | none => ki
    writeImports rest (realOut ++ "import " ++ is ++ "\n")

/-- What one emission leaves behind: the buffer `out`, the keys of
`currentImports`, and the text written to the file when the keys are visited in
the order in which they were recorded (one of the possible orders). -/
structure Emitted where
  out : String
  imports : Imports
  file : String
  deriving DecidableEq

/-- The loop over `tp.parents` of `exportInterface`. -/
def writeParents (hasName : String → Bool) :
    List Expr → String → Imports → Option (String × Imports)
  | [], out, imp => some (out, imp)
  | pd :: rest, out, imp =>
    match genType hasName pd false true imp with
    | none => none
    | some (t, imp1) => writeParents hasName rest (out ++ "    " ++ t ++ "\n") imp1

/-- The loop over the sorted `funcs` of `exportInterface`. -/
def writeMethods (hasName : String → Bool) :
    List FuncDecl → String → Imports → Option (String × Imports)
  | [], out, imp => some (out, imp)
  | fd :: rest, out, imp =>
    match genInterfaceDef hasName fd imp with
    | none => none
    | some (t, imp1) => writeMethods hasName rest (out ++ "    " ++ t ++ "\n") imp1

/-- Function `exportInterface` of the source, without the file-system calls
(the directory and file name play no part in the text).  The sort works in
place on the slice of the entry; as every reader of `funcs` sorts first, the
entry is left as it is here. -/
def exportInterface (hasName : String → Bool) (name : String) (tp : TypeThing) :
    Option Emitted :=
  let out := "type " ++ name ++ " interface \x7b\n"
  match writeParents hasName tp.parents out [] with
  | none => none
  | some (out1, imp1) =>
    let hasParents := !tp.parents.isEmpty
    let out2 := if hasParents && decide (tp.funcs.length > 0) then out1 ++ "\n" else out1
    match writeMethods hasName (sortByName tp.funcs) out2 imp1 with
    | none => none
    | some (out3, imp2) =>
      let out4 := out3 ++ "\x7d // end of " ++ name ++ "\n\n"
      let out5 := out4 ++ "func Assert" ++ name ++ "(_ " ++ name ++ ") \x7b\x7d\n"
      some { out := out5, imports := imp2,
             file := writeImports imp2 "package iface\n\n" ++ "\n" ++ out5 }

/-- The loop of `exportAllInterfaces` over the sorted entries: the name and the
emission of every file written. -/
def exportAllLoop (hasName : String → Bool) : List TypeThing → Option (List (String × Emitted))
  | [] => some []
  | tp :: rest =>
    if tp.name != "<global>" then
      match exportInterface hasName tp.name tp with
      | none => none
      | some e =>
        match exportAllLoop hasName rest with
        | none => none
        | some es => some ((tp.name, e) :: es)
    else exportAllLoop hasName rest

/-- Function `exportAllInterfaces` of the source. -/
def exportAllInterfaces (hasName : String → Bool) (typeThings : Table) :
    Option (List (String × Emitted)) :=
  exportAllLoop hasName (sortedTypeThings typeThings)

/-- Function `exportGlobalInterface` of the source; `some none` when there is no
global entry and nothing is written. -/
def exportGlobalInterface (hasName : String → Bool) (typeThings : Table) (name : String) :
    Option (Option Emitted) :=
  match typeThings.lookup "<global>" with
  | some tp =>
    match exportInterface hasName name tp with
    | none => none
    | some e => some (some e)
  | none => some none

/-- Function `genProxyMethod` of the source, on the buffer `out`. -/
def genProxyMethod (hasName : String → Bool) (out : String) (iname : String)
    (fd : FuncDecl) (imp : Imports) : Option (String × Imports) :=
  match genMethodDef hasName fd imp with
  | none => none
  | some (m, imp1) =>
    let out1 := out ++ "func (*Real" ++ iname ++ ") " ++ m ++ " \x7b\n"
    match genInvocation fd with
    | none => none
    | some inv => some (out1 ++ "  " ++ inv ++ "\n" ++ "\x7d\n\n", imp1)

/-- The loop over the sorted `funcs` of `exportGlobalImpl`. -/
def writeProxies (hasName : String → Bool) (iname : String) :
    List FuncDecl → String → Imports → Option (String × Imports)
  | [], out, imp => some (out, imp)
  | fd :: rest, out, imp =>
    match genProxyMethod hasName out iname fd imp with
    | none => none
    | some (out1, imp1) => writeProxies hasName iname rest out1 imp1

/-- Function `exportGlobalImpl` of the source; `some none` when there is no
global entry and nothing is written. -/
def exportGlobalImpl (hasName : String → Bool) (typeThings : Table)
    (iname pname proot : String) : Option (Option Emitted) :=
  match typeThings.lookup "<global>" with
  | some tp =>
    let out := "type Real" ++ iname ++ " struct\x7b\x7d\n\n"
    let out1 := out ++ "var Real = &Real" ++ iname ++ "\x7b\x7d\n\n"
    match writeProxies hasName iname (sortByName tp.funcs) out1 [] with
    | none => none
    | some (out2, imp) =>
      let realOut := "package " ++ pname ++ "\n\n"
      let realOut1 := realOut ++ "import \"" ++ proot ++ "/" ++ pname ++ "/iface\"\n"
      some (some { out := out2, imports := imp,
                   file := writeImports imp realOut1 ++ "\n" ++ out2 })
  | none => some none

/-- The loop of `exportTesterFile` over the sorted entries. -/
def writeTesters (iname : String) : List TypeThing → String → String
  | [], out => out
  | tp :: rest, out =>
    let name := if tp.name = "<global>" then iname else tp.name
    let testName := if tp.name = "<global>" then "Real" ++ iname else tp.name
    writeTesters iname rest (out ++ "  iface.Assert" ++ name ++ "(&" ++ testName ++ "\x7b\x7d)\n")

/-- Function `exportTesterFile` of the source: the text written to the file. -/
def exportTesterFile (typeThings : Table) (iname pname proot : String) : String :=
  let out := "package " ++ pname ++ "\n\n"
  let out1 := out ++ "import \"" ++ proot ++ "/" ++ pname ++ "/iface\"\n\n"
  let out2 := out1 ++ "func init() \x7b\n"
  writeTesters iname (sortedTypeThings typeThings) out2 ++ "\x7d\n"

/-! ## Sample declarations -/

/-- Declaration `type Widget struct { Base }`. -/
def widgetType : Decl :=
  .genDecl .TYPE [.typeSpec "Widget" (.structType (some (.mk [.mk [] (.ident "Base")])))]

/-- Declaration `func (w *Widget) Show() error`. -/
def widgetShow : FuncDecl :=
  { recv := some (.mk [.mk ["w"] (.starExpr (.ident "Widget"))]), name := "Show",
    type := .mk (.mk []) (some (.mk [.mk [] (.ident "error")])) }

/-- Declaration `func (w *Widget) Hide()`. -/
def widgetHide : FuncDecl :=
  { recv := some (.mk [.mk ["w"] (.starExpr (.ident "Widget"))]), name := "Hide",
    type := .mk (.mk []) none }

/-- A source directory with one package of one file holding the three `Widget`
declarations. -/
def widgetDir : List Package :=
  [{ files := [{ name := "widget.go",
                 decls := [widgetType, .funcDecl widgetShow, .funcDecl widgetHide] }] }]

/-- Field `Type` of a field node. -/
def Field.type : Field → Expr
  | .mk _ t => t

/-- Field `Names` of a field node. -/
def Field.names : Field → List String
  | .mk ns _ => ns

/-- Declaration `func DoThing(x int) (string, error)`. -/
def doThing : FuncDecl :=
  { recv := none, name := "DoThing",
    type := .mk (.mk [.mk ["x"] (.ident "int")])
      (some (.mk [.mk [] (.ident "string"), .mk [] (.ident "error")])) }

/-- Declaration `func Reset() ()`, an empty parenthesised result list: the parser
gives it a result list that is present and has no entry. -/
def resetFunc : FuncDecl :=
  { recv := none, name := "Reset", type := .mk (.mk []) (some (.mk [])) }

/-- Declaration `func Add(a, b int) int`, two parameters declared as one group. -/
def addFunc : FuncDecl :=
  { recv := none, name := "Add",
    type := .mk (.mk [.mk ["a", "b"] (.ident "int")]) (some (.mk [.mk [] (.ident "int")])) }

/-- Declaration `func Attach(w *WidgetBase)`. -/
def attachFunc : FuncDecl :=
  { recv := none, name := "Attach",
    type := .mk (.mk [.mk ["w"] (.starExpr (.ident "WidgetBase"))]) none }

/-- A source directory declaring `type Base struct{}`, `type WidgetBase int` and
the free function `Attach` above. -/
def attachDir : List Package :=
  [{ files := [{ name := "attach.go",
                 decls := [.genDecl .TYPE [.typeSpec "Base" (.structType (some (.mk [])))],
                           .genDecl .TYPE [.typeSpec "WidgetBase" (.ident "int")],
                           .funcDecl attachFunc] }] }]

/-- The text of a run of body lines: every entry indented by four spaces and
closed by a newline. -/
def indentedLines : List String → String
  | [] => ""
  | l :: ls => "    " ++ l ++ "\n" ++ indentedLines ls

/-- Relation "not after" of the string order: `b < a` is false. -/
def strLE (a b : String) : Prop := ¬ strLess b a

/-! ## The walk as a sequence of atomic steps -/

/-- One step of the walk: a function declaration, or one spec of a `type`
declaration. -/
inductive Item where
  | func (fd : FuncDecl)
  | spec (sp : Spec)

/-- The steps a declaration stands for. -/
def declItems : Decl → List Item
  | .funcDecl fd => [.func fd]
  | .genDecl .TYPE specs => specs.map .spec
  | .genDecl _ _ => []
  | .badDecl => []

/-- The files of all packages, in the order of the walk. -/
def allFiles (pkgs : List Package) : List File :=
  pkgs.flatMap (fun pa => pa.files)

/-- The declarations of the files the walk does not skip, in the order of the walk. -/
def selectedDecls (pkgs : List Package) : List Decl :=
  ((allFiles pkgs).filter (fun f => fileSelected f.name)).flatMap (fun f => f.decls)

/-- The steps of the whole walk, in order. -/
def walkItems (pkgs : List Package) : List Item :=
  (selectedDecls pkgs).flatMap declItems

/-- The effect of one step on the state of the walk. -/
def collectItem (isUpper : Char → Bool) (st : Walk) : Item → Option Walk
  | .func fd => collectFuncDecl isUpper st fd
  | .spec sp => collectSpec isUpper st sp

/-- The function declarations of the files the walk does not skip. -/
def declaredFuncs (pkgs : List Package) : List FuncDecl :=
  (selectedDecls pkgs).filterMap (fun d => match d with
    | .funcDecl fd => some fd
    | _ => none)

/-- The type expression of the receiver of a declaration (`Recv.List[0].Type`). -/
def FuncDecl.recvType (fd : FuncDecl) : Option Expr :=
  match fd.recv with
  | some (.mk (f :: _)) => some (Field.type f)
  | _ => none

/-- The types of the fields without a name of a struct, in declaration order. -/
def anonymousFields : Option FieldList → List Expr
  | none => []
  | some (.mk l) => (l.filter (fun f => (Field.names f).isEmpty)).map Field.type

/-- The key of the entry a step files something under. -/
def itemKeys (isUpper : Char → Bool) : Item → List String
  | .func fd => if IsExported isUpper fd.name then (receiverName fd).toList else []
  | .spec (.typeSpec name (.structType _)) => if IsExported isUpper name then [name] else []
  | .spec _ => []

/-- The operation a step files under the key `k`. -/
def itemFuncs (isUpper : Char → Bool) (k : String) : Item → List FuncDecl
  | .func fd => if IsExported isUpper fd.name ∧ receiverName fd = some k then [fd] else []
  | .spec _ => []

/-- The parents a step files under the key `k`. -/
def itemParents (isUpper : Char → Bool) (k : String) : Item → List Expr
  | .spec (.typeSpec name (.structType fields)) =>
    if IsExported isUpper name ∧ name = k then anonymousFields fields else []
  | _ => []

/-- The name a step marks as known in `hasName`. -/
def itemStructs (isUpper : Char → Bool) : Item → List String
  | .spec (.typeSpec name (.structType _)) => if IsExported isUpper name then [name] else []
  | _ => []

/-- The exported struct types declared in the files the walk does not skip, one
entry per declaration. -/
def declaredStructs (isUpper : Char → Bool) (pkgs : List Package) : List String :=
  (walkItems pkgs).flatMap (itemStructs isUpper)

/-- The operations filed under a key of the table. -/
def entryFuncs (m : Table) (k : String) : List FuncDecl :=
  match m.lookup k with
  | some v => v.funcs
  | none => []

/-- The parents filed under a key of the table. -/
def entryParents (m : Table) (k : String) : List Expr :=
  match m.lookup k with
  | some v => v.parents
  | none => []

/-- A lookup-or-create under `k` followed by the mutation `f` of the record. -/
def touch (m : Table) (k : String) (f : TypeThing → TypeThing) : Table :=
  store (getOrCreateTypeThing m k).1 k (f (getOrCreateTypeThing m k).2)

/-- What a run of steps `items` that takes the walk from `st` to `st1` has done:
which keys exist, what is filed under each key, which names are known, and the
two invariants of the table it keeps. -/
def Extends (isUpper : Char → Bool) (st st1 : Walk) (items : List Item) : Prop :=
  (∀ k, (st1.typeThings.lookup k).isSome
      ↔ ((st.typeThings.lookup k).isSome ∨ k ∈ items.flatMap (itemKeys isUpper)))
  ∧ (∀ k, entryFuncs st1.typeThings k
      = entryFuncs st.typeThings k ++ items.flatMap (itemFuncs isUpper k))
  ∧ (∀ k, entryParents st1.typeThings k
      = entryParents st.typeThings k ++ items.flatMap (itemParents isUpper k))
  ∧ (∀ n, st1.hasName n = (st.hasName n || decide (n ∈ items.flatMap (itemStructs isUpper))))
  ∧ ((st.typeThings.map Prod.fst).Nodup → (st1.typeThings.map Prod.fst).Nodup)
  ∧ ((∀ k v, st.typeThings.lookup k = some v → v.name = k)
      → ∀ k v, st1.typeThings.lookup k = some v → v.name = k)

/-- Declaration `func (w Widget) Close()`, a method with a value receiver. -/
def widgetClose : FuncDecl :=
  { recv := some (.mk [.mk ["w"] (.ident "Widget")]), name := "Close",
    type := .mk (.mk []) none }

/-- A source directory of two files: a pointer-receiver method of `Widget` in
the first, a value-receiver method of `Widget` in the second. -/
def mixedDir : List Package :=
  [{ files := [{ name := "show.go", decls := [.funcDecl widgetShow] },
               { name := "close.go", decls := [.funcDecl widgetClose] }] }]

/-- Two records that no synthesizer can tell apart: same name, same parents in
the same order, same operations once sorted. -/
def SameEntry (e1 e2 : TypeThing) : Prop :=
  e1.name = e2.name ∧ e1.parents = e2.parents
    ∧ sortByName e1.funcs = sortByName e2.funcs ∧ e1.funcs.length = e2.funcs.length

/-- Two type declarations of `Widget` with different embedded parents, as two
platform variants of a file give them. -/
def widgetX11 : File :=
  { name := "widget_x11.go",
    decls := [.genDecl .TYPE
      [.typeSpec "Widget" (.structType (some (.mk [.mk [] (.ident "X11Base")])))]] }

/-- The second platform variant of the declaration of `Widget`. -/
def widgetQuartz : File :=
  { name := "widget_quartz.go",
    decls := [.genDecl .TYPE
      [.typeSpec "Widget" (.structType (some (.mk [.mk [] (.ident "QuartzBase")])))]] }

/-- Declaration `func (w Widget) Show()`, a second operation named `Show`. -/
def widgetShowPlain : FuncDecl :=
  { recv := some (.mk [.mk ["w"] (.ident "Widget")]), name := "Show",
    type := .mk (.mk []) none }

/-- A file declaring `func (w *Widget) Show() error`. -/
def showFile : File := { name := "show_x11.go", decls := [.funcDecl widgetShow] }

/-- A file declaring `func (w Widget) Show()`. -/
def showPlainFile : File := { name := "show_quartz.go", decls := [.funcDecl widgetShowPlain] }

/-- The contract text of the entry under `k` after the walk of `pkgs`. -/
def contractTextOf (pkgs : List Package) (k : String) : Option String :=
  (collectAllFrom Char.isUpper (fun _ => false) pkgs).bind
    (fun w => (w.typeThings.lookup k).bind
      (fun tp => (exportInterface w.hasName k tp).map (fun e => e.out)))

/-- Declaration `func New() Widget`. -/
def newWidget : FuncDecl :=
  { recv := none, name := "New",
    type := .mk (.mk []) (some (.mk [.mk [] (.ident "Widget")])) }

/-- Declaration `func (s Stack[T]) Len() int`, a method of a generic type: its
receiver type is an index expression. -/
def stackLen : FuncDecl :=
  { recv := some (.mk [.mk ["s"] (.indexExpr (.ident "Stack") (.ident "T"))]), name := "Len",
    type := .mk (.mk []) (some (.mk [.mk [] (.ident "int")])) }

/-- A source directory whose only declaration is the method `Len` above. -/
def stackDir : List Package :=
  [{ files := [{ name := "stack.go", decls := [.funcDecl stackLen] }] }]

/-- The assertion line `exportTesterFile` writes for an entry of the given name. -/
def testerLine (iname name : String) : String :=
  "  iface.Assert" ++ (if name = "<global>" then iname else name) ++ "(&"
    ++ (if name = "<global>" then "Real" ++ iname else name) ++ "\x7b\x7d)\n"

/-- Whether the record under a key holds a `definition`. -/
def entryDefined (m : Table) (k : String) : Bool :=
  match m.lookup k with
  | some v => v.definition.isSome
  | none => false

/-- A source directory declaring `type Color int` and the method
`func (c Color) String() string`. -/
def colorDir : List Package :=
  [{ files := [{ name := "color.go",
                 decls := [.genDecl .TYPE [.typeSpec "Color" (.ident "int")],
                           .funcDecl { recv := some (.mk [.mk ["c"] (.ident "Color")]),
                                       name := "String",
                                       type := .mk (.mk [])
                                         (some (.mk [.mk [] (.ident "string")])) }] }] }]

/-! ## Referenced namespaces -/

mutual
/-- The namespaces that qualify a name in the rendering of a type expression:
for every qualified-name node met on the way, at any depth, the rendered prefix
after the `_iface` rewriting. -/
def qualifiers (hasName : String → Bool) : Expr → Bool → Bool → List String
  | .ident _, _, _ => []
  | .starExpr x, wi, wio => qualifiers hasName x wi wio
  | .selectorExpr x _, _, wio =>
    qualifiers hasName x false false ++
      (match genType hasName x false false [] with
        | some (pref, _) => [if knownPrefixes pref && wio then pref ++ "_iface" else pref]
        | none => [])
  | .mapType key value, wi, wio =>
    qualifiers hasName key wi wio ++ qualifiers hasName value wi wio
  | .interfaceType _, _, _ => []
  | .arrayType _ elt, wi, wio => qualifiers hasName elt wi wio
  | .ellipsis none, _, _ => []
  | .ellipsis (some elt), wi, wio => qualifiers hasName elt wi wio
  | .funcType ft, wi, wio => qualifiersFuncType hasName ft wi wio
  | .structType _, _, _ => []
  | .basicLit _, _, _ => []
  | .parenExpr _, _, _ => []
  | .indexExpr _ _, _, _ => []
  | .chanType _, _, _ => []
termination_by structural e => e
/-- The namespaces that qualify a name in the rendering of a field. -/
def qualifiersField (hasName : String → Bool) : Field → Bool → Bool → List String
  | .mk _ type, wi, wio => qualifiers hasName type wi wio
termination_by structural e => e
/-- The namespaces that qualify a name in the rendering of a run of fields. -/
def qualifiersFields (hasName : String → Bool) : List Field → Bool → Bool → List String
  | [], _, _ => []
  | f :: fs, wi, wio => qualifiersField hasName f wi wio ++ qualifiersFields hasName fs wi wio
termination_by structural e => e
/-- The namespaces that qualify a name in the rendering of a result list. -/
def qualifiersResults (hasName : String → Bool) : Option FieldList → Bool → Bool → List String
  | none, _, _ => []
  | some (.mk l), wi, wio => qualifiersFields hasName l wi wio
termination_by structural e => e
/-- The namespaces that qualify a name in the rendering of a parameter list. -/
def qualifiersParams (hasName : String → Bool) : FieldList → Bool → Bool → List String
  | .mk l, wi, wio => qualifiersFields hasName l wi wio
termination_by structural e => e
/-- The namespaces that qualify a name in the rendering of a signature. -/
def qualifiersFuncType (hasName : String → Bool) : FuncType → Bool → Bool → List String
  | .mk params results, wi, wio =>
    qualifiersParams hasName params wi wio ++ qualifiersResults hasName results wi wio
termination_by structural e => e
end

/-- What a rendering that takes the set of imports from `imp` to `imp1` has
recorded: the keys stay distinct, and the keys afterwards are the keys before
and the namespaces `qs`. -/
def Records (imp imp1 : Imports) (qs : List String) : Prop :=
  (imp.Nodup → imp1.Nodup) ∧ ∀ q, q ∈ imp1 ↔ (q ∈ imp ∨ q ∈ qs)

/-- The import line written for the key `k` of `currentImports`. -/
def importLine (k : String) : String :=
  "import " ++ (match importStrings k with
    | some v => v
    | none => k) ++ "\n"

/-- The type `map[gtk.Widget]*func(o glib.Object) pango.Layout`. -/
def nestedType : Expr :=
  .mapType (.selectorExpr (.ident "gtk") "Widget")
    (.starExpr (.funcType (.mk (.mk [.mk ["o"] (.selectorExpr (.ident "glib") "Object")])
      (some (.mk [.mk [] (.selectorExpr (.ident "pango") "Layout")])))))

/-- Declaration `func Size() (w, h int)`: two results declared as one group, that
is, a result list of one field with two names. -/
def sizeFunc : FuncDecl :=
  { recv := none, name := "Size",
    type := .mk (.mk []) (some (.mk [.mk ["w", "h"] (.ident "int")])) }

/-- The `<global>` entry of a table in which `New` was discovered before
`DoThing`. -/
def globalEntry : TypeThing :=
  { name := "<global>", definition := none, parents := [], funcs := [newWidget, doThing] }

/-- The table holding the entry `globalEntry` alone. -/
def globalTable : Table := [("<global>", globalEntry)]

/-- An entry `Button` with the embedded parent `gtk.Widget` and the operation
`Bind(o glib.Object)`. -/
def buttonEntry : TypeThing :=
  { name := "Button", definition := none,
    parents := [.selectorExpr (.ident "gtk") "Widget"],
    funcs := [{ recv := some (.mk [.mk ["b"] (.starExpr (.ident "Button"))]), name := "Bind",
                type := .mk (.mk [.mk ["o"] (.selectorExpr (.ident "glib") "Object")]) none }] }

/-- The text `exportInterface` writes to the file when the loop
`for ki := range currentImports` visits the keys in the order `visit` and the
buffer holds `out`.  The order of a range over a map is not fixed by the
language; every rearrangement of the keys is a possible `visit`. -/
def interfaceFile (visit : List String) (out : String) : String :=
  writeImports visit "package iface\n\n" ++ "\n" ++ out

/-! ## Theorems -/

/-! ### The text does not depend on the imports recorded so far -/

theorem fst_cases {α : Type} (a b : Option (α × Imports))
    (h : a.map Prod.fst = b.map Prod.fst) :
    (a = none ∧ b = none) ∨ ∃ t i j, a = some (t, i) ∧ b = some (t, j) := by
  cases a with
  | none =>
    cases b with
    | none => exact Or.inl ⟨rfl, rfl⟩
    | some y => simp at h
  | some x =>
    cases b with
    | none => simp at h
    | some y =>
      obtain ⟨t, i⟩ := x
      obtain ⟨u, j⟩ := y
      simp at h
      subst h
      exact Or.inr ⟨t, i, j, rfl, rfl⟩

mutual
theorem genType_text_indep (hn : String → Bool) :
    ∀ (e : Expr) (wi wio : Bool) (i j : Imports),
      (genType hn e wi wio i).map Prod.fst = (genType hn e wi wio j).map Prod.fst
  | .ident name, wi, wio, i, j => by
    simp only [genType]
    split <;> [split; skip] <;> rfl
  | .starExpr x, wi, wio, i, j => by
    rcases fst_cases _ _ (genType_text_indep hn x wi wio i j) with ⟨ha, hb⟩ | ⟨t, i1, j1, ha, hb⟩
    · simp [genType, ha, hb]
    · simp only [genType, ha, hb]
      cases starKnown hn wi t with
      | none => rfl
      | some b =>
        cases b
        · simp only []
          split <;> rfl
        · rfl
  | .selectorExpr x sel, wi, wio, i, j => by
    rcases fst_cases _ _ (genType_text_indep hn x false false i j) with ⟨ha, hb⟩ | ⟨t, i1, j1, ha, hb⟩
    · simp [genType, ha, hb]
    · simp [genType, ha, hb]
  | .mapType key value, wi, wio, i, j => by
    rcases fst_cases _ _ (genType_text_indep hn key wi wio i j) with ⟨ha, hb⟩ | ⟨t, i1, j1, ha, hb⟩
    · simp [genType, ha, hb]
    · rcases fst_cases _ _ (genType_text_indep hn value wi wio i1 j1) with
        ⟨hc, hd⟩ | ⟨u, i2, j2, hc, hd⟩
      · simp [genType, ha, hb, hc, hd]
      · simp [genType, ha, hb, hc, hd]
  | .interfaceType _, wi, wio, i, j => by simp [genType]
  | .arrayType len elt, wi, wio, i, j => by
    rcases fst_cases _ _ (genType_text_indep hn elt wi wio i j) with ⟨ha, hb⟩ | ⟨t, i1, j1, ha, hb⟩
    · cases hl : arrayType len <;> simp [genType, ha, hb, hl]
    · cases hl : arrayType len <;> simp [genType, ha, hb, hl]
  | .ellipsis none, wi, wio, i, j => by simp [genType]
  | .ellipsis (some elt), wi, wio, i, j => by
    rcases fst_cases _ _ (genType_text_indep hn elt wi wio i j) with ⟨ha, hb⟩ | ⟨t, i1, j1, ha, hb⟩
    · simp [genType, ha, hb]
    · simp [genType, ha, hb]
  | .funcType ft, wi, wio, i, j => by
    rcases fst_cases _ _ (genFuncType_text_indep hn ft false wi wio i j) with
      ⟨ha, hb⟩ | ⟨t, i1, j1, ha, hb⟩
    · simp [genType, ha, hb]
    · simp [genType, ha, hb]
  | .structType _, wi, wio, i, j => by simp [genType]
  | .basicLit _, wi, wio, i, j => by simp [genType]
  | .parenExpr _, wi, wio, i, j => by simp [genType]
  | .indexExpr _ _, wi, wio, i, j => by simp [genType]
  | .chanType _, wi, wio, i, j => by simp [genType]
termination_by structural e => e
theorem genField_text_indep (hn : String → Bool) :
    ∀ (f : Field) (wn wi wio : Bool) (i j : Imports),
      (genField hn f wn wi wio i).map Prod.fst = (genField hn f wn wi wio j).map Prod.fst
  | .mk names type, wn, wi, wio, i, j => by
    rcases fst_cases _ _ (genType_text_indep hn type wi wio i j) with ⟨ha, hb⟩ | ⟨t, i1, j1, ha, hb⟩
    · cases wn <;> cases names <;> simp [genField, ha, hb]
    · cases wn <;> cases names <;> simp [genField, ha, hb]
termination_by structural f => f
theorem genFields_text_indep (hn : String → Bool) :
    ∀ (l : List Field) (wn wi wio : Bool) (i j : Imports),
      (genFields hn l wn wi wio i).map Prod.fst = (genFields hn l wn wi wio j).map Prod.fst
  | [], wn, wi, wio, i, j => by simp [genFields]
  | f :: fs, wn, wi, wio, i, j => by
    rcases fst_cases _ _ (genField_text_indep hn f wn wi wio i j) with ⟨ha, hb⟩ | ⟨t, i1, j1, ha, hb⟩
    · simp [genFields, ha, hb]
    · rcases fst_cases _ _ (genFields_text_indep hn fs wn wi wio i1 j1) with
        ⟨hc, hd⟩ | ⟨u, i2, j2, hc, hd⟩
      · simp [genFields, ha, hb, hc, hd]
      · simp [genFields, ha, hb, hc, hd]
termination_by structural l => l
theorem genResults_text_indep (hn : String → Bool) :
    ∀ (r : Option FieldList) (wi wio : Bool) (i j : Imports),
      (genResults hn r wi wio i).map Prod.fst = (genResults hn r wi wio j).map Prod.fst
  | none, wi, wio, i, j => by simp [genResults]
  | some (.mk l), wi, wio, i, j => by
    rcases fst_cases _ _ (genFields_text_indep hn l false wi wio i j) with
      ⟨ha, hb⟩ | ⟨t, i1, j1, ha, hb⟩
    · simp [genResults, ha, hb]
    · simp [genResults, ha, hb]
termination_by structural r => r
theorem genParams_text_indep (hn : String → Bool) :
    ∀ (p : FieldList) (wn wi wio : Bool) (i j : Imports),
      (genParams hn p wn wi wio i).map Prod.fst = (genParams hn p wn wi wio j).map Prod.fst
  | .mk l, wn, wi, wio, i, j => by
    rcases fst_cases _ _ (genFields_text_indep hn l wn wi wio i j) with
      ⟨ha, hb⟩ | ⟨t, i1, j1, ha, hb⟩
    · simp [genParams, ha, hb]
    · simp [genParams, ha, hb]
termination_by structural p => p
theorem genFuncType_text_indep (hn : String → Bool) :
    ∀ (ft : FuncType) (wn wi wio : Bool) (i j : Imports),
      (genFuncType hn ft wn wi wio i).map Prod.fst = (genFuncType hn ft wn wi wio j).map Prod.fst
  | .mk params results, wn, wi, wio, i, j => by
    rcases fst_cases _ _ (genParams_text_indep hn params wn wi wio i j) with
      ⟨ha, hb⟩ | ⟨t, i1, j1, ha, hb⟩
    · simp [genFuncType, ha, hb]
    · rcases fst_cases _ _ (genResults_text_indep hn results wi wio i1 j1) with
        ⟨hc, hd⟩ | ⟨u, i2, j2, hc, hd⟩
      · simp [genFuncType, ha, hb, hc, hd]
      · simp [genFuncType, ha, hb, hc, hd]
termination_by structural ft => ft
end

/-! ### Result lists -/

theorem genFields_forall₂ (hasName : String → Bool) (wi wio : Bool) :
    ∀ (l : List Field) (ts : List String) (imp imp1 : Imports),
      genFields hasName l false wi wio imp = some (ts, imp1) →
      List.Forall₂ (fun f t => ∃ i j, genType hasName (Field.type f) wi wio i = some (t, j)) l ts
  | [], ts, imp, imp1, h => by
    simp [genFields] at h
    obtain ⟨rfl, -⟩ := h
    exact List.Forall₂.nil
  | (.mk names type) :: fs, ts, imp, imp1, h => by
    simp only [genFields, genField] at h
    cases hg : genType hasName type wi wio imp with
    | none => simp [hg] at h
    | some r =>
      obtain ⟨t, i1⟩ := r
      simp only [hg] at h
      cases hr : genFields hasName fs false wi wio i1 with
      | none => simp [hr] at h
      | some r2 =>
        obtain ⟨ts2, i2⟩ := r2
        simp [hr] at h
        obtain ⟨rfl, -⟩ := h
        exact List.Forall₂.cons ⟨imp, i1, hg⟩ (genFields_forall₂ hasName wi wio fs ts2 i1 i2 hr)

/-- The three-way format of `genResults` on the entries of the result list: the
empty text for a nil or an empty list, a space and the rendered type for a list
of one entry (whatever names the entry declares), the parenthesised comma-joined
rendered types for two or more entries, one type per entry in order. -/
theorem genResults_three_way (hasName : String → Bool) (wi wio : Bool) (imp : Imports) :
    genResults hasName none wi wio imp = some ("", imp)
    ∧ genResults hasName (some (.mk [])) wi wio imp = some ("", imp)
    ∧ (∀ names type,
        genResults hasName (some (.mk [.mk names type])) wi wio imp
          = (genType hasName type wi wio imp).map (fun r => (" " ++ r.1, r.2)))
    ∧ (∀ l : List Field, 2 ≤ l.length →
        genResults hasName (some (.mk l)) wi wio imp
          = (genFields hasName l false wi wio imp).map
              (fun r => (" (" ++ stringsJoin r.1 ", " ++ ")", r.2)))
    ∧ (∀ (l : List Field) (ts : List String) (imp1 : Imports),
        genFields hasName l false wi wio imp = some (ts, imp1) →
        List.Forall₂
          (fun f t => ∃ i j, genType hasName (Field.type f) wi wio i = some (t, j)) l ts) := by
  refine ⟨by simp [genResults, formatResults], by simp [genResults, genFields, formatResults],
    ?_, ?_, fun l ts imp1 h => genFields_forall₂ hasName wi wio l ts imp imp1 h⟩
  · intro names type
    simp only [genResults, genFields, genField]
    cases genType hasName type wi wio imp with
    | none => simp
    | some r => simp [formatResults]
  · intro l hl
    simp only [genResults]
    cases hg : genFields hasName l false wi wio imp with
    | none => simp
    | some r =>
      obtain ⟨ts, i1⟩ := r
      have hlen : ts.length = l.length :=
        (genFields_forall₂ hasName wi wio l ts imp i1 hg).length_eq.symm
      match ts, hlen with
      | [], h0 => simp at h0; omega
      | [_], h1 => simp at h1; omega
      | a :: b :: rest, _ => simp [formatResults]

/-- The result list `(string, error)` of `DoThing`, two entries of one result
each. -/
theorem genResults_three_way_witness :
    genResults (fun _ => false)
        (some (.mk [.mk [] (.ident "string"), .mk [] (.ident "error")])) false true []
      = some (" (string, error)", []) := by
  have h := (genResults_three_way (fun _ => false) false true []).2.2.2.1
    [.mk [] (.ident "string"), .mk [] (.ident "error")] (by decide)
  rw [h]
  decide

/-- Claim C1: for the result list `(w, h int)` of `func Size() (w, h int)`, which
declares the two results `w` and `h` in one field, `genResults` gives ` int`,
the format of a single result, and the contract-mode signature is `Size() int`;
for the ungrouped list `(string, error)` it gives ` (string, error)`. -/
theorem genResults_grouped_results :
    (sizeFunc.type.results.map (fun r => match r with
        | .mk l => l.map Field.names)) = some [["w", "h"]]
    ∧ genResults (fun _ => false) sizeFunc.type.results false true [] = some (" int", [])
    ∧ genResults (fun _ => false) sizeFunc.type.results true true [] = some (" int", [])
    ∧ genInterfaceDef (fun _ => false) sizeFunc [] = some ("Size() int", [])
    ∧ genResults (fun _ => false) doThing.type.results false true []
        = some (" (string, error)", []) := by
  decide

/-! ### Forwarding calls -/

/-- Claim C4: for `func Reset() ()` the result list is present and empty, the
signature renders no result, and `genInvocation` still puts `return ` in front
of the call; for `func DoThing(x int) (string, error)` the call is
`return DoThing(x)`. -/
theorem genInvocation_return_on_empty_results :
    resetFunc.type.results = some (.mk [])
    ∧ genResults (fun _ => false) resetFunc.type.results true true [] = some ("", [])
    ∧ genInvocation resetFunc = some "return Reset()"
    ∧ genInvocation doThing = some "return DoThing(x)" := by
  refine ⟨rfl, ?_, ?_, ?_⟩ <;> decide

/-- Claim C5: for `func Add(a, b int) int`, whose only parameter group declares
the names `a` and `b`, the forwarding call of `genInvocation` names `a` alone. -/
theorem genInvocation_drops_grouped_names :
    (addFunc.type.paramList.map Field.names) = [["a", "b"]]
    ∧ genInvocation addFunc = some "return Add(a)" := by
  decide

/-- Claim C6: with `Base` a discovered type and `WidgetBase` not one, the
concrete-mode signature of `func Attach(w *WidgetBase)` has lost the pointer
marker of its parameter while the contract-mode signature keeps it. -/
theorem genMethodDef_pointer_mismatch :
    (collectAllFrom Char.isUpper (fun _ => false) attachDir).bind
        (fun w => genMethodDef w.hasName attachFunc []) = some ("Attach(w WidgetBase)", [])
    ∧ (collectAllFrom Char.isUpper (fun _ => false) attachDir).bind
        (fun w => genInterfaceDef w.hasName attachFunc []) = some ("Attach(*WidgetBase)", []) := by
  decide

/-! ### Pointers -/

theorem sliceFrom_iface (T : String) :
    sliceFrom 6 ('i' :: 'f' :: 'a' :: 'c' :: 'e' :: '.' :: T.data) = some (some T) := by
  have hi : Char.utf8Size 'i' = 1 := by decide
  have hf : Char.utf8Size 'f' = 1 := by decide
  have ha : Char.utf8Size 'a' = 1 := by decide
  have hc : Char.utf8Size 'c' = 1 := by decide
  have he : Char.utf8Size 'e' = 1 := by decide
  have hd : Char.utf8Size '.' = 1 := by decide
  simp [sliceFrom, hi, hf, ha, hc, he, hd]

/-- Claim C7: for a known discovered type `T`, the pointer to `T` renders as `T`
itself does in every mode: `iface.T` with local substitution on, `T` with it
off. -/
theorem genType_star_known (hasName : String → Bool) (T : String) (wi wio : Bool)
    (imp : Imports) (hT : hasName T = true) :
    genType hasName (.starExpr (.ident T)) wi wio imp = genType hasName (.ident T) wi wio imp
    ∧ genType hasName (.starExpr (.ident T)) true wio imp = some ("iface." ++ T, imp)
    ∧ genType hasName (.starExpr (.ident T)) false wio imp = some (T, imp) := by
  have h1 : genType hasName (.starExpr (.ident T)) true wio imp = some ("iface." ++ T, imp) := by
    simp [genType, hT, starKnown, sliceFrom_iface]
  have h2 : genType hasName (.starExpr (.ident T)) false wio imp = some (T, imp) := by
    simp [genType, hT, starKnown]
  refine ⟨?_, h1, h2⟩
  cases wi
  · rw [h2]; simp [genType, hT]
  · rw [h1]; simp [genType, hT]

/-- Witness for C7: the discovered type `Widget`. -/
theorem genType_star_known_witness :
    genType (fun n => n == "Widget") (.starExpr (.ident "Widget")) true true []
      = genType (fun n => n == "Widget") (.ident "Widget") true true []
    ∧ genType (fun n => n == "Widget") (.starExpr (.ident "Widget")) true true []
      = some ("iface." ++ "Widget", [])
    ∧ genType (fun n => n == "Widget") (.starExpr (.ident "Widget")) false true []
      = some ("Widget", []) :=
  genType_star_known (fun n => n == "Widget") "Widget" true true [] (by decide)

/-- Claim C10: the pointer to the builtin `int`, a tree of supported nodes only,
makes `genType` panic when local substitution is on (the slice `nm[6:]` of the
three-byte text `int` is out of range); with local substitution off it renders
as `*int`. -/
theorem genType_star_short_panics :
    genType (fun _ => false) (.starExpr (.ident "int")) true true [] = none
    ∧ genType (fun _ => false) (.starExpr (.ident "int")) true false [] = none
    ∧ genType (fun _ => false) (.starExpr (.ident "int")) false true [] = some ("*int", [])
    ∧ genMethodDef (fun _ => false)
        { recv := none, name := "Fill", type := .mk (.mk [.mk ["p"] (.starExpr (.ident "int"))]) none }
        [] = none := by
  decide

/-! ### The order of names -/

theorem strLess_asymm {a b : String} (h : strLess a b) : ¬ strLess b a := fun h2 =>
  (List.Lex.isAsymm (fun x y : Char => x < y)).asymm a.data b.data h h2

theorem strLess_trans {a b c : String} (h1 : strLess a b) (h2 : strLess b c) : strLess a c :=
  (inferInstance : IsTrans (List Char) (List.Lex (fun x y : Char => x < y))).trans
    a.data b.data c.data h1 h2

theorem strLess_trichotomy (a b : String) : strLess a b ∨ a = b ∨ strLess b a := by
  rcases (List.Lex.isTrichotomous (fun x y : Char => x < y)).trichotomous a.data b.data with
    h | h | h
  · exact Or.inl h
  · exact Or.inr (Or.inl (String.ext h))
  · exact Or.inr (Or.inr h)

theorem strLE_total (a b : String) : strLE a b ∨ strLE b a := by
  by_cases h : strLess b a
  · exact Or.inr (strLess_asymm h)
  · exact Or.inl h

theorem strLE_trans {a b c : String} (h1 : strLE a b) (h2 : strLE b c) : strLE a c := by
  intro hca
  rcases strLess_trichotomy a b with h | h | h
  · exact h2 (strLess_trans hca h)
  · subst h; exact h2 hca
  · exact h1 h

theorem strLE_antisymm {a b : String} (h1 : strLE a b) (h2 : strLE b a) : a = b := by
  rcases strLess_trichotomy a b with h | h | h
  · exact absurd h h2
  · exact h
  · exact absurd h h1

theorem sortByName_perm (l : List FuncDecl) : (sortByName l).Perm l :=
  List.perm_insertionSort byNameLE l

theorem sortByName_sorted (l : List FuncDecl) : (sortByName l).Pairwise byNameLE := by
  haveI : IsTotal FuncDecl byNameLE := ⟨fun a b => strLE_total a.name b.name⟩
  haveI : IsTrans FuncDecl byNameLE := ⟨fun _ _ _ h1 h2 => strLE_trans h1 h2⟩
  exact List.sorted_insertionSort byNameLE l

theorem sorted_names_unique {l₁ l₂ : List String} (hp : l₁.Perm l₂)
    (h1 : l₁.Pairwise strLE) (h2 : l₂.Pairwise strLE) : l₁ = l₂ := by
  haveI : IsAntisymm String strLE := ⟨fun _ _ h1 h2 => strLE_antisymm h1 h2⟩
  exact List.eq_of_perm_of_sorted hp h1 h2

theorem sortByName_names (l : List FuncDecl) :
    ((sortByName l).map FuncDecl.name).Pairwise strLE :=
  List.pairwise_map.2 (sortByName_sorted l)

theorem sortByName_names_of_perm {l₁ l₂ : List FuncDecl} (hp : l₁.Perm l₂) :
    (sortByName l₁).map FuncDecl.name = (sortByName l₂).map FuncDecl.name :=
  sorted_names_unique
    ((((sortByName_perm l₁).trans hp).trans (sortByName_perm l₂).symm).map FuncDecl.name)
    (sortByName_names l₁) (sortByName_names l₂)

/-! ### Contract text -/

theorem writeParents_out (hn : String → Bool) :
    ∀ (ps : List Expr) (out : String) (imp : Imports) (out1 : String) (imp1 : Imports),
      writeParents hn ps out imp = some (out1, imp1) →
      ∃ ts, List.Forall₂ (fun pd t => ∃ i j, genType hn pd false true i = some (t, j)) ps ts
        ∧ out1 = out ++ indentedLines ts
  | [], out, imp, out1, imp1, h => by
    simp [writeParents] at h
    exact ⟨[], List.Forall₂.nil, by simp [indentedLines, h.1]⟩
  | pd :: rest, out, imp, out1, imp1, h => by
    simp only [writeParents] at h
    cases hg : genType hn pd false true imp with
    | none => simp [hg] at h
    | some r =>
      obtain ⟨t, i1⟩ := r
      simp only [hg] at h
      obtain ⟨ts, hts, ho⟩ := writeParents_out hn rest _ i1 out1 imp1 h
      exact ⟨t :: ts, List.Forall₂.cons ⟨imp, i1, hg⟩ hts, by
        simp [ho, indentedLines, String.append_assoc]⟩

theorem writeMethods_out (hn : String → Bool) :
    ∀ (fs : List FuncDecl) (out : String) (imp : Imports) (out1 : String) (imp1 : Imports),
      writeMethods hn fs out imp = some (out1, imp1) →
      ∃ ts, List.Forall₂ (fun fd t => ∃ i j, genInterfaceDef hn fd i = some (t, j)) fs ts
        ∧ out1 = out ++ indentedLines ts
  | [], out, imp, out1, imp1, h => by
    simp [writeMethods] at h
    exact ⟨[], List.Forall₂.nil, by simp [indentedLines, h.1]⟩
  | fd :: rest, out, imp, out1, imp1, h => by
    simp only [writeMethods] at h
    cases hg : genInterfaceDef hn fd imp with
    | none => simp [hg] at h
    | some r =>
      obtain ⟨t, i1⟩ := r
      simp only [hg] at h
      obtain ⟨ts, hts, ho⟩ := writeMethods_out hn rest _ i1 out1 imp1 h
      exact ⟨t :: ts, List.Forall₂.cons ⟨imp, i1, hg⟩ hts, by
        simp [ho, indentedLines, String.append_assoc]⟩

theorem isSome_of_text_indep {a b : Option (String × Imports)}
    (h : a.map Prod.fst = b.map Prod.fst) (hb : b.isSome) : a.isSome := by
  rcases fst_cases a b h with ⟨-, h2⟩ | ⟨t, i, j, h1, -⟩
  · simp [h2] at hb
  · simp [h1]

theorem genInterfaceDef_text_indep (hn : String → Bool) (fd : FuncDecl) (i j : Imports) :
    (genInterfaceDef hn fd i).map Prod.fst = (genInterfaceDef hn fd j).map Prod.fst := by
  rcases fst_cases _ _ (genFuncType_text_indep hn fd.type false false true i j) with
    ⟨ha, hb⟩ | ⟨t, i1, j1, ha, hb⟩
  · simp [genInterfaceDef, ha, hb]
  · simp [genInterfaceDef, ha, hb]

theorem writeParents_isSome (hn : String → Bool) :
    ∀ (ps : List Expr) (out : String) (imp : Imports),
      (∀ pd ∈ ps, (genType hn pd false true []).isSome) →
      (writeParents hn ps out imp).isSome
  | [], out, imp, _ => by simp [writeParents]
  | pd :: rest, out, imp, h => by
    have h1 : (genType hn pd false true imp).isSome :=
      isSome_of_text_indep (genType_text_indep hn pd false true imp [])
        (h pd (List.mem_cons_self _ _))
    obtain ⟨r, hr⟩ := Option.isSome_iff_exists.1 h1
    simp only [writeParents, hr]
    exact writeParents_isSome hn rest _ _ (fun q hq => h q (List.mem_cons_of_mem _ hq))

theorem writeMethods_isSome (hn : String → Bool) :
    ∀ (fs : List FuncDecl) (out : String) (imp : Imports),
      (∀ fd ∈ fs, (genInterfaceDef hn fd []).isSome) →
      (writeMethods hn fs out imp).isSome
  | [], out, imp, _ => by simp [writeMethods]
  | fd :: rest, out, imp, h => by
    have h1 : (genInterfaceDef hn fd imp).isSome :=
      isSome_of_text_indep (genInterfaceDef_text_indep hn fd imp [])
        (h fd (List.mem_cons_self _ _))
    obtain ⟨r, hr⟩ := Option.isSome_iff_exists.1 h1
    simp only [writeMethods, hr]
    exact writeMethods_isSome hn rest _ _ (fun q hq => h q (List.mem_cons_of_mem _ hq))

theorem exportInterface_out (hn : String → Bool) (name : String) (tp : TypeThing)
    (e : Emitted) (h : exportInterface hn name tp = some e) :
    ∃ ps ms,
      List.Forall₂ (fun pd p => ∃ i j, genType hn pd false true i = some (p, j)) tp.parents ps
      ∧ List.Forall₂ (fun fd m => ∃ i j, genInterfaceDef hn fd i = some (m, j))
          (sortByName tp.funcs) ms
      ∧ e.out = "type " ++ name ++ " interface \x7b\n" ++ indentedLines ps
          ++ (if 0 < tp.parents.length ∧ 0 < tp.funcs.length then "\n" else "")
          ++ indentedLines ms
          ++ "\x7d // end of " ++ name ++ "\n\n"
          ++ "func Assert" ++ name ++ "(_ " ++ name ++ ") \x7b\x7d\n" := by
  simp only [exportInterface] at h
  cases hp : writeParents hn tp.parents ("type " ++ name ++ " interface \x7b\n") [] with
  | none => simp [hp] at h
  | some r =>
    obtain ⟨out1, imp1⟩ := r
    simp only [hp] at h
    obtain ⟨ps, hps, ho1⟩ := writeParents_out hn _ _ _ _ _ hp
    cases hm : writeMethods hn (sortByName tp.funcs)
        (if (!tp.parents.isEmpty && decide (tp.funcs.length > 0)) = true then out1 ++ "\n"
          else out1) imp1 with
    | none => simp [hm] at h
    | some r2 =>
      obtain ⟨out3, imp2⟩ := r2
      simp only [hm] at h
      obtain ⟨ms, hms, ho3⟩ := writeMethods_out hn _ _ _ _ _ hm
      refine ⟨ps, ms, hps, hms, ?_⟩
      simp only [Option.some.injEq] at h
      rw [← h]
      simp only [ho3, ho1]
      by_cases hc : 0 < tp.parents.length ∧ 0 < tp.funcs.length
      · have hb : (!tp.parents.isEmpty && decide (tp.funcs.length > 0)) = true := by
          obtain ⟨hc1, hc2⟩ := hc
          cases hpp : tp.parents with
          | nil => simp [hpp] at hc1
          | cons a l => simp [hc2]
        rw [if_pos hb, if_pos hc]
      · have hb : (!tp.parents.isEmpty && decide (tp.funcs.length > 0)) = false := by
          cases hpp : tp.parents with
          | nil => simp
          | cons a l =>
            have : ¬ 0 < tp.funcs.length := fun h0 => hc ⟨by simp [hpp], h0⟩
            simp [this]
        have hb2 : ¬ ((!tp.parents.isEmpty && decide (tp.funcs.length > 0)) = true) := by
          rw [hb]; simp
        rw [if_neg hb2, if_neg hc]
        simp [String.append_assoc]

theorem exportInterface_isSome (hn : String → Bool) (name : String) (tp : TypeThing)
    (hp : ∀ pd ∈ tp.parents, (genType hn pd false true []).isSome)
    (hf : ∀ fd ∈ tp.funcs, (genInterfaceDef hn fd []).isSome) :
    (exportInterface hn name tp).isSome := by
  simp only [exportInterface]
  obtain ⟨r, hr⟩ := Option.isSome_iff_exists.1
    (writeParents_isSome hn tp.parents ("type " ++ name ++ " interface \x7b\n") [] hp)
  simp only [hr]
  have hf2 : ∀ fd ∈ sortByName tp.funcs, (genInterfaceDef hn fd []).isSome :=
    fun fd hfd => hf fd ((sortByName_perm tp.funcs).mem_iff.1 hfd)
  obtain ⟨r2, hr2⟩ := Option.isSome_iff_exists.1
    (writeMethods_isSome hn (sortByName tp.funcs)
      (if (!tp.parents.isEmpty && decide (tp.funcs.length > 0)) = true then r.1 ++ "\n"
        else r.1) r.2 hf2)
  simp only [hr2]
  rfl

/-- Claim C2: the contract text of `exportInterface` is the header, one line per
parent in declaration order, a blank line exactly when there are both parents
and operations, the method lines, the closing marker, a blank line and the
assertion function; it is produced whenever every parent and operation renders;
for the `Widget` directory the text is the one of the example. -/
theorem exportInterface_layout (hn : String → Bool) (name : String) (tp : TypeThing) :
    (∀ e, exportInterface hn name tp = some e →
      ∃ ps ms,
        List.Forall₂ (fun pd p => ∃ i j, genType hn pd false true i = some (p, j))
          tp.parents ps
        ∧ List.Forall₂ (fun fd m => ∃ i j, genInterfaceDef hn fd i = some (m, j))
            (sortByName tp.funcs) ms
        ∧ e.out = "type " ++ name ++ " interface \x7b\n" ++ indentedLines ps
            ++ (if 0 < tp.parents.length ∧ 0 < tp.funcs.length then "\n" else "")
            ++ indentedLines ms
            ++ "\x7d // end of " ++ name ++ "\n\n"
            ++ "func Assert" ++ name ++ "(_ " ++ name ++ ") \x7b\x7d\n")
    ∧ ((∀ pd ∈ tp.parents, (genType hn pd false true []).isSome) →
        (∀ fd ∈ tp.funcs, (genInterfaceDef hn fd []).isSome) →
        (exportInterface hn name tp).isSome)
    ∧ (collectAllFrom Char.isUpper (fun _ => false) widgetDir).bind
        (fun w => (w.typeThings.lookup "Widget").bind
          (fun tt => (exportInterface w.hasName "Widget" tt).map (fun e => e.out)))
      = some ("type Widget interface \x7b\n" ++ "    Base\n" ++ "\n" ++ "    Hide()\n"
          ++ "    Show() error\n" ++ "\x7d // end of Widget\n" ++ "\n"
          ++ "func AssertWidget(_ Widget) \x7b\x7d\n") :=
  ⟨fun e h => exportInterface_out hn name tp e h,
   fun hp hf => exportInterface_isSome hn name tp hp hf, by decide⟩

/-- Witness for C2: the `Widget` entry, whose parent and operations all render. -/
theorem exportInterface_layout_witness :
    (exportInterface (fun n => n == "Widget") "Widget"
      { name := "Widget", definition := none, parents := [.ident "Base"],
        funcs := [widgetShow, widgetHide] }).isSome :=
  (exportInterface_layout (fun n => n == "Widget") "Widget"
    { name := "Widget", definition := none, parents := [.ident "Base"],
      funcs := [widgetShow, widgetHide] }).2.1 (by decide) (by decide)

/-! ### Method lines and proxy methods -/

theorem writeProxies_out (hn : String → Bool) (iname : String) :
    ∀ (fs : List FuncDecl) (out : String) (imp : Imports) (out1 : String) (imp1 : Imports),
      writeProxies hn iname fs out imp = some (out1, imp1) →
      ∃ ms, List.Forall₂ (fun fd m => ∃ i j sig inv,
              genMethodDef hn fd i = some (sig, j) ∧ genInvocation fd = some inv
              ∧ m = "func (*Real" ++ iname ++ ") " ++ sig ++ " \x7b\n" ++ "  " ++ inv ++ "\n"
                  ++ "\x7d\n\n") fs ms
        ∧ out1 = out ++ ms.foldr (fun m acc => m ++ acc) ""
  | [], out, imp, out1, imp1, h => by
    simp [writeProxies] at h
    exact ⟨[], List.Forall₂.nil, by simp [h.1]⟩
  | fd :: rest, out, imp, out1, imp1, h => by
    simp only [writeProxies, genProxyMethod] at h
    cases hg : genMethodDef hn fd imp with
    | none => simp [hg] at h
    | some r =>
      obtain ⟨sig, i1⟩ := r
      simp only [hg] at h
      cases hv : genInvocation fd with
      | none => simp [hv] at h
      | some inv =>
        simp only [hv] at h
        obtain ⟨ms, hms, ho⟩ := writeProxies_out hn iname rest _ i1 out1 imp1 h
        exact ⟨_ :: ms, List.Forall₂.cons ⟨imp, i1, sig, inv, hg, hv, rfl⟩ hms, by
          simp [ho, String.append_assoc]⟩

theorem genMethodDef_text_indep (hn : String → Bool) (fd : FuncDecl) (i j : Imports) :
    (genMethodDef hn fd i).map Prod.fst = (genMethodDef hn fd j).map Prod.fst := by
  rcases fst_cases _ _ (genFuncType_text_indep hn fd.type true true true i j) with
    ⟨ha, hb⟩ | ⟨t, i1, j1, ha, hb⟩
  · simp [genMethodDef, ha, hb]
  · simp [genMethodDef, ha, hb]

theorem writeProxies_isSome (hn : String → Bool) (iname : String) :
    ∀ (fs : List FuncDecl) (out : String) (imp : Imports),
      (∀ fd ∈ fs, (genMethodDef hn fd []).isSome = true ∧ (genInvocation fd).isSome = true) →
      (writeProxies hn iname fs out imp).isSome = true
  | [], out, imp, _ => by simp [writeProxies]
  | fd :: rest, out, imp, h => by
    obtain ⟨h1, h2⟩ := h fd (List.mem_cons_self _ _)
    have h3 : (genMethodDef hn fd imp).isSome :=
      isSome_of_text_indep (genMethodDef_text_indep hn fd imp []) h1
    obtain ⟨r, hr⟩ := Option.isSome_iff_exists.1 h3
    obtain ⟨inv, hinv⟩ := Option.isSome_iff_exists.1 h2
    simp only [writeProxies, genProxyMethod, hr, hinv]
    exact writeProxies_isSome hn iname rest _ _ (fun q hq => h q (List.mem_cons_of_mem _ hq))

theorem exportGlobalImpl_out (hn : String → Bool) (tp : TypeThing) (tbl : Table)
    (iname pname proot : String) (e : Emitted)
    (hl : tbl.lookup "<global>" = some tp)
    (h : exportGlobalImpl hn tbl iname pname proot = some (some e)) :
    ∃ ms, List.Forall₂ (fun fd m => ∃ i j sig inv,
            genMethodDef hn fd i = some (sig, j) ∧ genInvocation fd = some inv
            ∧ m = "func (*Real" ++ iname ++ ") " ++ sig ++ " \x7b\n" ++ "  " ++ inv ++ "\n"
                ++ "\x7d\n\n") (sortByName tp.funcs) ms
      ∧ e.out = "type Real" ++ iname ++ " struct\x7b\x7d\n\n"
          ++ "var Real = &Real" ++ iname ++ "\x7b\x7d\n\n"
          ++ ms.foldr (fun m acc => m ++ acc) "" := by
  simp only [exportGlobalImpl, hl] at h
  cases hw : writeProxies hn iname (sortByName tp.funcs)
      ("type Real" ++ iname ++ " struct\x7b\x7d\n\n" ++ "var Real = &Real" ++ iname
        ++ "\x7b\x7d\n\n") [] with
  | none => simp [hw] at h
  | some r =>
    obtain ⟨out2, imp2⟩ := r
    simp only [hw, Option.some.injEq] at h
    obtain ⟨ms, hms, ho⟩ := writeProxies_out hn iname _ _ _ _ _ hw
    refine ⟨ms, hms, ?_⟩
    rw [← h]
    simp [ho, String.append_assoc]

theorem exportGlobalImpl_emits (hn : String → Bool) (tp : TypeThing) (tbl : Table)
    (iname pname proot : String)
    (hl : tbl.lookup "<global>" = some tp)
    (hf : ∀ fd ∈ tp.funcs,
      (genMethodDef hn fd []).isSome = true ∧ (genInvocation fd).isSome = true) :
    ∃ e, exportGlobalImpl hn tbl iname pname proot = some (some e) := by
  have hf2 : ∀ fd ∈ sortByName tp.funcs,
      (genMethodDef hn fd []).isSome = true ∧ (genInvocation fd).isSome = true :=
    fun fd hfd => hf fd ((sortByName_perm tp.funcs).mem_iff.1 hfd)
  obtain ⟨r, hr⟩ := Option.isSome_iff_exists.1
    (writeProxies_isSome hn iname (sortByName tp.funcs)
      ("type Real" ++ iname ++ " struct\x7b\x7d\n\n" ++ "var Real = &Real" ++ iname
        ++ "\x7b\x7d\n\n") [] hf2)
  simp only [exportGlobalImpl, hl, hr]
  exact ⟨_, rfl⟩

/-- Claim C3: the operations rendered by `exportInterface` and by
`exportGlobalImpl` are the entry's operations rearranged in ascending order of
name, with the same sequence of names for every order of discovery; whenever
every operation renders, both routines emit, and what they emit is one method
line (one proxy method) per operation in that order. -/
theorem methods_sorted_by_name (hn : String → Bool) (tp : TypeThing) :
    (sortByName tp.funcs).Perm tp.funcs
    ∧ (sortByName tp.funcs).Pairwise (fun a b => ¬ strLess b.name a.name)
    ∧ (∀ fs : List FuncDecl, fs.Perm tp.funcs →
        (sortByName fs).map FuncDecl.name = (sortByName tp.funcs).map FuncDecl.name)
    ∧ (∀ name e, exportInterface hn name tp = some e →
        ∃ ps ms,
          List.Forall₂ (fun fd m => ∃ i j, genInterfaceDef hn fd i = some (m, j))
            (sortByName tp.funcs) ms
          ∧ e.out = "type " ++ name ++ " interface \x7b\n" ++ indentedLines ps
              ++ (if 0 < tp.parents.length ∧ 0 < tp.funcs.length then "\n" else "")
              ++ indentedLines ms
              ++ "\x7d // end of " ++ name ++ "\n\n"
              ++ "func Assert" ++ name ++ "(_ " ++ name ++ ") \x7b\x7d\n")
    ∧ (∀ (tbl : Table) (iname pname proot : String) (e : Emitted),
        tbl.lookup "<global>" = some tp →
        exportGlobalImpl hn tbl iname pname proot = some (some e) →
        ∃ ms, List.Forall₂ (fun fd m => ∃ i j sig inv,
                genMethodDef hn fd i = some (sig, j) ∧ genInvocation fd = some inv
                ∧ m = "func (*Real" ++ iname ++ ") " ++ sig ++ " \x7b\n" ++ "  " ++ inv ++ "\n"
                    ++ "\x7d\n\n") (sortByName tp.funcs) ms
          ∧ e.out = "type Real" ++ iname ++ " struct\x7b\x7d\n\n"
              ++ "var Real = &Real" ++ iname ++ "\x7b\x7d\n\n"
              ++ ms.foldr (fun m acc => m ++ acc) "")
    ∧ (∀ name : String,
        (∀ pd ∈ tp.parents, (genType hn pd false true []).isSome = true) →
        (∀ fd ∈ tp.funcs, (genInterfaceDef hn fd []).isSome = true) →
        ∃ e ps ms, exportInterface hn name tp = some e
          ∧ List.Forall₂ (fun fd m => ∃ i j, genInterfaceDef hn fd i = some (m, j))
              (sortByName tp.funcs) ms
          ∧ ms.length = tp.funcs.length
          ∧ e.out = "type " ++ name ++ " interface \x7b\n" ++ indentedLines ps
              ++ (if 0 < tp.parents.length ∧ 0 < tp.funcs.length then "\n" else "")
              ++ indentedLines ms
              ++ "\x7d // end of " ++ name ++ "\n\n"
              ++ "func Assert" ++ name ++ "(_ " ++ name ++ ") \x7b\x7d\n")
    ∧ (∀ (tbl : Table) (iname pname proot : String),
        tbl.lookup "<global>" = some tp →
        (∀ fd ∈ tp.funcs,
          (genMethodDef hn fd []).isSome = true ∧ (genInvocation fd).isSome = true) →
        ∃ e ms, exportGlobalImpl hn tbl iname pname proot = some (some e)
          ∧ List.Forall₂ (fun fd m => ∃ i j sig inv,
                genMethodDef hn fd i = some (sig, j) ∧ genInvocation fd = some inv
                ∧ m = "func (*Real" ++ iname ++ ") " ++ sig ++ " \x7b\n" ++ "  " ++ inv ++ "\n"
                    ++ "\x7d\n\n") (sortByName tp.funcs) ms
          ∧ ms.length = tp.funcs.length
          ∧ e.out = "type Real" ++ iname ++ " struct\x7b\x7d\n\n"
              ++ "var Real = &Real" ++ iname ++ "\x7b\x7d\n\n"
              ++ ms.foldr (fun m acc => m ++ acc) "") := by
  refine ⟨sortByName_perm tp.funcs, sortByName_sorted tp.funcs,
    fun fs hfs => sortByName_names_of_perm hfs, ?_, ?_, ?_, ?_⟩
  · intro name e h
    obtain ⟨ps, ms, -, hms, ho⟩ := exportInterface_out hn name tp e h
    exact ⟨ps, ms, hms, ho⟩
  · intro tbl iname pname proot e hl h
    exact exportGlobalImpl_out hn tp tbl iname pname proot e hl h
  · intro name hp hf
    obtain ⟨e, he⟩ := Option.isSome_iff_exists.1 (exportInterface_isSome hn name tp hp hf)
    obtain ⟨ps, ms, -, hms, ho⟩ := exportInterface_out hn name tp e he
    exact ⟨e, ps, ms, he, hms,
      hms.length_eq.symm.trans (sortByName_perm tp.funcs).length_eq, ho⟩
  · intro tbl iname pname proot hl hf
    obtain ⟨e, he⟩ := exportGlobalImpl_emits hn tp tbl iname pname proot hl hf
    obtain ⟨ms, hms, ho⟩ := exportGlobalImpl_out hn tp tbl iname pname proot e hl he
    exact ⟨e, ms, he, hms,
      hms.length_eq.symm.trans (sortByName_perm tp.funcs).length_eq, ho⟩

set_option maxRecDepth 8000 in
/-- Witness for C3: the `<global>` entry with `New` discovered before `DoThing`;
`exportGlobalImpl` emits the proxy of `DoThing`, then the proxy of `New`, and
`exportInterface` the method line of `DoThing`, then that of `New`. -/
theorem methods_sorted_by_name_witness :
    (∃ e, exportGlobalImpl (fun _ => false) globalTable "Gtk" "gtk" "example.org"
        = some (some e)
      ∧ e.out = "type RealGtk struct\x7b\x7d\n\n" ++ "var Real = &RealGtk\x7b\x7d\n\n"
          ++ "func (*RealGtk) DoThing(x int) (string, error) \x7b\n"
          ++ "  return DoThing(x)\n" ++ "\x7d\n\n"
          ++ "func (*RealGtk) New() Widget \x7b\n" ++ "  return New()\n" ++ "\x7d\n\n")
    ∧ (∃ e, exportInterface (fun _ => false) "Gtk" globalEntry = some e
      ∧ e.out = "type Gtk interface \x7b\n" ++ "    DoThing(int) (string, error)\n"
          ++ "    New() Widget\n" ++ "\x7d // end of Gtk\n\n"
          ++ "func AssertGtk(_ Gtk) \x7b\x7d\n") := by
  have hf : ∀ fd ∈ globalEntry.funcs,
      (genMethodDef (fun _ => false) fd []).isSome = true ∧ (genInvocation fd).isSome = true := by
    intro fd hfd
    have hfs : globalEntry.funcs = [newWidget, doThing] := rfl
    rw [hfs] at hfd
    rcases List.mem_cons.1 hfd with h | h
    · subst h; decide
    · rw [List.mem_singleton] at h
      subst h; decide
  have hg : ∀ fd ∈ globalEntry.funcs, (genInterfaceDef (fun _ => false) fd []).isSome = true := by
    intro fd hfd
    have hfs : globalEntry.funcs = [newWidget, doThing] := rfl
    rw [hfs] at hfd
    rcases List.mem_cons.1 hfd with h | h
    · subst h; decide
    · rw [List.mem_singleton] at h
      subst h; decide
  obtain ⟨e, -, he, -, -, -⟩ := (methods_sorted_by_name (fun _ => false) globalEntry).2.2.2.2.2.2
    globalTable "Gtk" "gtk" "example.org" rfl hf
  obtain ⟨e2, -, -, he2, -, -, -⟩ := (methods_sorted_by_name (fun _ => false) globalEntry).2.2.2.2.2.1
    "Gtk" (fun pd hpd => by cases hpd) hg
  refine ⟨⟨e, he, ?_⟩, ⟨e2, he2, ?_⟩⟩
  · have ht : (exportGlobalImpl (fun _ => false) globalTable "Gtk" "gtk" "example.org").map
        (Option.map (fun e => e.out))
        = some (some ("type RealGtk struct\x7b\x7d\n\n" ++ "var Real = &RealGtk\x7b\x7d\n\n"
          ++ "func (*RealGtk) DoThing(x int) (string, error) \x7b\n"
          ++ "  return DoThing(x)\n" ++ "\x7d\n\n"
          ++ "func (*RealGtk) New() Widget \x7b\n" ++ "  return New()\n" ++ "\x7d\n\n")) := by
      decide
    rw [he] at ht
    simpa using ht
  · have ht : (exportInterface (fun _ => false) "Gtk" globalEntry).map (fun e => e.out)
        = some ("type Gtk interface \x7b\n" ++ "    DoThing(int) (string, error)\n"
          ++ "    New() Widget\n" ++ "\x7d // end of Gtk\n\n"
          ++ "func AssertGtk(_ Gtk) \x7b\x7d\n") := by
      decide
    rw [he2] at ht
    simpa using ht

/-! ### The symbol table as a map -/

theorem foldlM_flatMap {α β σ : Type} (f : σ → β → Option σ) (g : α → List β) :
    ∀ (l : List α) (s : σ),
      (l.flatMap g).foldlM f s = l.foldlM (fun s a => (g a).foldlM f s) s
  | [], s => rfl
  | a :: l, s => by
    simp only [List.flatMap_cons, List.foldlM_append, List.foldlM_cons]
    cases (g a).foldlM f s with
    | none => rfl
    | some s1 => exact foldlM_flatMap f g l s1

theorem foldlM_filter {α σ : Type} (f : σ → α → Option σ) (p : α → Bool) :
    ∀ (l : List α) (s : σ),
      (l.filter p).foldlM f s = l.foldlM (fun s a => if p a then f s a else some s) s
  | [], s => rfl
  | a :: l, s => by
    by_cases hp : p a = true
    · simp only [List.filter_cons_of_pos hp, List.foldlM_cons, hp, if_true]
      cases f s a with
      | none => rfl
      | some s1 => exact foldlM_filter f p l s1
    · simp only [List.filter_cons_of_neg hp, List.foldlM_cons, hp]
      exact foldlM_filter f p l s

theorem lookup_append_single (m : Table) (k k1 : String) (v : TypeThing) :
    (m ++ [(k, v)]).lookup k1
      = match m.lookup k1 with
        | some x => some x
        | none => if k1 = k then some v else none := by
  induction m with
  | nil =>
    by_cases h : k1 = k
    · subst h; simp
    · have : (k1 == k) = false := by simpa using h
      simp [List.lookup_cons, this, h]
  | cons kv m ih =>
    obtain ⟨a, b⟩ := kv
    by_cases h : k1 = a
    · subst h; simp
    · have : (k1 == a) = false := by simpa using h
      simp only [List.cons_append, List.lookup_cons, this]
      exact ih

theorem store_cons (a : String) (b : TypeThing) (m : Table) (k : String) (v : TypeThing) :
    store ((a, b) :: m) k v = (a, if a = k then v else b) :: store m k v := by
  simp only [store, List.map_cons]
  by_cases h : a = k <;> simp [h]

theorem lookup_store (m : Table) (k k1 : String) (v : TypeThing) :
    (store m k v).lookup k1
      = if k1 = k then (m.lookup k).map (fun _ => v) else m.lookup k1 := by
  induction m with
  | nil => simp [store]
  | cons kv m ih =>
    obtain ⟨a, b⟩ := kv
    rw [store_cons, List.lookup_cons, ih]
    by_cases hk : k1 = k
    · subst hk
      by_cases ha : k1 = a
      · subst ha; simp
      · have h2 : (k1 == a) = false := by simpa using ha
        simp [List.lookup_cons, h2]
    · by_cases ha : k1 = a
      · subst ha
        have h3 : ¬ k1 = k := hk
        simp [List.lookup_cons, h3]
      · have h2 : (k1 == a) = false := by simpa using ha
        simp [List.lookup_cons, h2, hk]

theorem store_keys (m : Table) (k : String) (v : TypeThing) :
    (store m k v).map Prod.fst = m.map Prod.fst := by
  induction m with
  | nil => rfl
  | cons kv m ih =>
    obtain ⟨a, b⟩ := kv
    rw [store_cons, List.map_cons, ih]
    rfl

/-- The record a lookup-or-create under `k` hands out. -/
theorem getOrCreate_snd (m : Table) (k : String) :
    (getOrCreateTypeThing m k).2
      = (m.lookup k).getD { name := k, definition := none, parents := [], funcs := [] } := by
  simp only [getOrCreateTypeThing]
  cases m.lookup k <;> rfl

theorem lookup_getOrCreate (m : Table) (k k1 : String) :
    (getOrCreateTypeThing m k).1.lookup k1
      = if k1 = k then some (getOrCreateTypeThing m k).2 else m.lookup k1 := by
  simp only [getOrCreateTypeThing]
  cases hl : m.lookup k with
  | some v =>
    by_cases hk : k1 = k
    · subst hk; simp [hl]
    · simp [hk]
  | none =>
    simp only [lookup_append_single]
    by_cases hk : k1 = k
    · subst hk; simp [hl]
    · simp only [hk, if_false]
      cases m.lookup k1 <;> rfl

theorem lookup_touch (m : Table) (k k1 : String) (f : TypeThing → TypeThing) :
    (touch m k f).lookup k1
      = if k1 = k then
          some (f ((m.lookup k).getD { name := k, definition := none, parents := [], funcs := [] }))
        else m.lookup k1 := by
  simp only [touch, lookup_store, lookup_getOrCreate, getOrCreate_snd]
  by_cases hk : k1 = k
  · simp [hk]
  · simp [hk]

theorem touch_keys (m : Table) (k : String) (f : TypeThing → TypeThing) :
    (touch m k f).map Prod.fst
      = if (m.lookup k).isSome then m.map Prod.fst else m.map Prod.fst ++ [k] := by
  simp only [touch, store_keys, getOrCreateTypeThing]
  cases m.lookup k <;> simp

theorem touch_facts (m : Table) (k0 : String) (f : TypeThing → TypeThing)
    (fs : List FuncDecl) (ps : List Expr)
    (hname : ∀ t, (f t).name = t.name)
    (hf : ∀ t, (f t).funcs = t.funcs ++ fs)
    (hp : ∀ t, (f t).parents = t.parents ++ ps) :
    (∀ k, ((touch m k0 f).lookup k).isSome ↔ ((m.lookup k).isSome ∨ k = k0))
    ∧ (∀ k, entryFuncs (touch m k0 f) k = entryFuncs m k ++ (if k = k0 then fs else []))
    ∧ (∀ k, entryParents (touch m k0 f) k = entryParents m k ++ (if k = k0 then ps else []))
    ∧ ((m.map Prod.fst).Nodup → ((touch m k0 f).map Prod.fst).Nodup)
    ∧ ((∀ k v, m.lookup k = some v → v.name = k)
        → ∀ k v, (touch m k0 f).lookup k = some v → v.name = k) := by
  refine ⟨?_, ?_, ?_, ?_, ?_⟩
  · intro k
    rw [lookup_touch]
    by_cases hk : k = k0
    · simp [hk]
    · simp [hk]
  · intro k
    simp only [entryFuncs, lookup_touch]
    by_cases hk : k = k0
    · subst hk
      simp only [if_true, hf]
      cases m.lookup k <;> simp
    · simp only [hk, if_false]
      cases m.lookup k <;> simp
  · intro k
    simp only [entryParents, lookup_touch]
    by_cases hk : k = k0
    · subst hk
      simp only [if_true, hp]
      cases m.lookup k <;> simp
    · simp only [hk, if_false]
      cases m.lookup k <;> simp
  · intro hnd
    rw [touch_keys]
    cases hl : m.lookup k0 with
    | some v => simpa using hnd
    | none =>
      have hnot : k0 ∉ m.map Prod.fst := by
        intro hmem
        obtain ⟨kv, hkv, hfst⟩ := List.mem_map.1 hmem
        have := (List.lookup_eq_none_iff.1 hl) kv hkv
        simp [hfst] at this
      simp only [Option.isSome_none, Bool.false_eq_true, if_false]
      exact List.nodup_append.2 ⟨hnd, List.nodup_singleton _, by
        intro a ha hb
        rw [List.mem_singleton] at hb
        exact hnot (hb ▸ ha)⟩
  · intro hinv k v hl
    rw [lookup_touch] at hl
    by_cases hk : k = k0
    · subst hk
      simp only [if_true, Option.some.injEq] at hl
      rw [← hl, hname]
      cases hm : m.lookup k with
      | some w => simpa using hinv k w hm
      | none => rfl
    · simp only [hk, if_false] at hl
      exact hinv k v hl

theorem addParentsLoop_eq :
    ∀ (l : List Field) (tt : TypeThing),
      addParentsLoop l tt
        = { tt with parents := tt.parents
              ++ (l.filter (fun f => (Field.names f).isEmpty)).map Field.type }
  | [], tt => by simp [addParentsLoop]
  | (.mk names type) :: rest, tt => by
    simp only [addParentsLoop]
    rw [addParentsLoop_eq rest]
    cases names with
    | nil => simp [TypeThing.addParent, Field.names, Field.type]
    | cons n ns => simp [Field.names]

theorem addParents_eq (fields : Option FieldList) (tt : TypeThing) :
    addParents fields tt = { tt with parents := tt.parents ++ anonymousFields fields } := by
  cases fields with
  | none => simp [addParents, anonymousFields]
  | some fl =>
    cases fl with
    | mk l => simp [addParents, anonymousFields, addParentsLoop_eq]

theorem extends_nil (isUpper : Char → Bool) (st : Walk) : Extends isUpper st st [] := by
  refine ⟨?_, ?_, ?_, ?_, fun h => h, fun h => h⟩ <;> intro k <;> simp

theorem extends_append (isUpper : Char → Bool) {st st1 st2 : Walk} {l1 l2 : List Item}
    (h1 : Extends isUpper st st1 l1) (h2 : Extends isUpper st1 st2 l2) :
    Extends isUpper st st2 (l1 ++ l2) := by
  obtain ⟨a1, b1, c1, d1, e1, f1⟩ := h1
  obtain ⟨a2, b2, c2, d2, e2, f2⟩ := h2
  refine ⟨?_, ?_, ?_, ?_, fun h => e2 (e1 h), fun h => f2 (f1 h)⟩
  · intro k
    rw [a2, a1, List.flatMap_append, List.mem_append]
    exact or_assoc
  · intro k
    rw [b2, b1, List.flatMap_append, List.append_assoc]
  · intro k
    rw [c2, c1, List.flatMap_append, List.append_assoc]
  · intro n
    rw [d2, d1, List.flatMap_append]
    simp [Bool.or_assoc, List.mem_append]

theorem extends_skip (isUpper : Char → Bool) (st : Walk) (it : Item)
    (hk : itemKeys isUpper it = []) (hf : ∀ k, itemFuncs isUpper k it = [])
    (hp : ∀ k, itemParents isUpper k it = []) (hs : itemStructs isUpper it = []) :
    Extends isUpper st st [it] := by
  refine ⟨?_, ?_, ?_, ?_, fun h => h, fun h => h⟩ <;> intro k <;> simp [hk, hf, hp, hs]

theorem extends_touch (isUpper : Char → Bool) (st : Walk) (it : Item) (k0 : String)
    (f : TypeThing → TypeThing) (fs : List FuncDecl) (ps : List Expr) (hn1 : String → Bool)
    (hname : ∀ t, (f t).name = t.name)
    (hf : ∀ t, (f t).funcs = t.funcs ++ fs)
    (hp : ∀ t, (f t).parents = t.parents ++ ps)
    (hk : itemKeys isUpper it = [k0])
    (hfs : ∀ k, itemFuncs isUpper k it = if k = k0 then fs else [])
    (hps : ∀ k, itemParents isUpper k it = if k = k0 then ps else [])
    (hs : ∀ n, hn1 n = (st.hasName n || decide (n ∈ itemStructs isUpper it))) :
    Extends isUpper st { typeThings := touch st.typeThings k0 f, hasName := hn1 } [it] := by
  obtain ⟨a, b, c, d, e⟩ := touch_facts st.typeThings k0 f fs ps hname hf hp
  refine ⟨?_, ?_, ?_, ?_, d, e⟩
  · intro k
    rw [a k]
    simp [hk]
  · intro k
    rw [b k]
    simp [hfs]
  · intro k
    rw [c k]
    simp [hps]
  · intro n
    show hn1 n = _
    rw [hs n]
    simp

theorem collectItem_extends (isUpper : Char → Bool) (st st1 : Walk) (it : Item)
    (h : collectItem isUpper st it = some st1) : Extends isUpper st st1 [it] := by
  cases it with
  | func fd =>
    simp only [collectItem, collectFuncDecl] at h
    by_cases hx : IsExported isUpper fd.name = true
    · simp only [hx, if_true] at h
      cases hr : receiverName fd with
      | none => simp [hr] at h
      | some recv =>
        simp only [hr, Option.some.injEq] at h
        rw [← h]
        exact extends_touch isUpper st (.func fd) recv (fun t => t.addFunc fd) [fd] [] st.hasName
          (fun _ => rfl) (fun _ => rfl) (fun t => by simp [TypeThing.addFunc])
          (by simp [itemKeys, hx, hr])
          (fun k => by
            by_cases hk : k = recv
            · simp [itemFuncs, hx, hr, hk]
            · have : ¬ recv = k := fun h2 => hk h2.symm
              simp [itemFuncs, hx, hr, hk, this])
          (fun k => by simp [itemParents])
          (fun n => by simp [itemStructs])
    · simp only [hx] at h
      simp only [Bool.false_eq_true, if_false, Option.some.injEq] at h
      rw [← h]
      exact extends_skip isUpper st _ (by simp [itemKeys, hx]) (fun k => by simp [itemFuncs, hx])
        (fun k => by simp [itemParents]) (by simp [itemStructs])
  | spec sp =>
    cases sp with
    | importSpec p => simp [collectItem, collectSpec] at h
    | valueSpec ns => simp [collectItem, collectSpec] at h
    | typeSpec name type =>
      simp only [collectItem, collectSpec] at h
      by_cases hx : IsExported isUpper name = true
      · simp only [hx, if_true] at h
        cases type with
        | structType fields =>
          simp only [Option.some.injEq] at h
          rw [← h]
          exact extends_touch isUpper st _ name
            (fun tt => addParents fields { tt with definition := some fields }) []
            (anonymousFields fields) _
            (fun t => by simp [addParents_eq]) (fun t => by simp [addParents_eq])
            (fun t => by simp [addParents_eq])
            (by simp [itemKeys, hx])
            (fun k => by simp [itemFuncs])
            (fun k => by
              by_cases hk : k = name
              · simp [itemParents, hx, hk]
              · have : ¬ name = k := fun h2 => hk h2.symm
                simp [itemParents, hx, hk, this])
            (fun n => by
              by_cases hn : n = name
              · simp [itemStructs, hx, hn]
              · simp [itemStructs, hx, hn])
        | _ =>
          simp only [Option.some.injEq] at h
          rw [← h]
          exact extends_skip isUpper st _ (by simp [itemKeys]) (fun k => by simp [itemFuncs])
            (fun k => by simp [itemParents]) (by simp [itemStructs])
      · simp only [hx] at h
        simp only [Bool.false_eq_true, if_false, Option.some.injEq] at h
        rw [← h]
        exact extends_skip isUpper st _
          (by cases type <;> simp [itemKeys, hx])
          (fun k => by simp [itemFuncs])
          (fun k => by cases type <;> simp [itemParents, hx])
          (by cases type <;> simp [itemStructs, hx])

theorem foldlM_extends (isUpper : Char → Bool) :
    ∀ (items : List Item) (st st1 : Walk),
      items.foldlM (collectItem isUpper) st = some st1 → Extends isUpper st st1 items
  | [], st, st1, h => by
    simp only [List.foldlM_nil] at h
    have : st = st1 := by simpa using h
    rw [← this]
    exact extends_nil isUpper st
  | it :: rest, st, st1, h => by
    simp only [List.foldlM_cons] at h
    cases hc : collectItem isUpper st it with
    | none => simp [hc] at h
    | some s1 =>
      simp only [hc] at h
      have h1 := collectItem_extends isUpper st s1 it hc
      have h2 := foldlM_extends isUpper rest s1 st1 h
      exact extends_append isUpper h1 h2

theorem collectAllFrom_eq_items (isUpper : Char → Bool) (hn : String → Bool)
    (pkgs : List Package) :
    collectAllFrom isUpper hn pkgs
      = (walkItems pkgs).foldlM (collectItem isUpper) { typeThings := [], hasName := hn } := by
  have hdecl : ∀ (d : Decl) (s : Walk),
      collectDecl isUpper s d = (declItems d).foldlM (collectItem isUpper) s := by
    intro d s
    cases d with
    | badDecl => rfl
    | funcDecl fd =>
      simp only [collectDecl, declItems, List.foldlM_cons, List.foldlM_nil, collectItem]
      cases collectFuncDecl isUpper s fd <;> rfl
    | genDecl tok specs =>
      cases tok with
      | TYPE =>
        simp only [collectDecl, declItems, List.foldlM_map]
        rfl
      | IMPORT => rfl
      | CONST => rfl
      | VAR => rfl
  simp only [walkItems, selectedDecls, allFiles, collectAllFrom, foldlM_flatMap, foldlM_filter]
  have hfun : (collectPackage isUpper)
      = fun s pa => List.foldlM (fun s a =>
          if fileSelected a.name = true then
            List.foldlM (fun s a => List.foldlM (collectItem isUpper) s (declItems a)) s a.decls
          else some s) s pa.files := by
    funext s pa
    simp only [collectPackage]
    congr 1
    funext s2 f
    simp only [collectFile]
    congr 1
    congr 1
    funext s3 d
    exact hdecl d s3
  rw [hfun]

/-! ### What the walk builds -/

theorem collectAllFrom_extends (isUpper : Char → Bool) (hn : String → Bool)
    (pkgs : List Package) (w : Walk) (h : collectAllFrom isUpper hn pkgs = some w) :
    Extends isUpper { typeThings := [], hasName := hn } w (walkItems pkgs) := by
  rw [collectAllFrom_eq_items] at h
  exact foldlM_extends isUpper _ _ _ h

theorem collectAllFrom_keys_nodup (isUpper : Char → Bool) (hn : String → Bool)
    (pkgs : List Package) (w : Walk) (h : collectAllFrom isUpper hn pkgs = some w) :
    (w.typeThings.map Prod.fst).Nodup :=
  (collectAllFrom_extends isUpper hn pkgs w h).2.2.2.2.1 List.nodup_nil

theorem collectAllFrom_names (isUpper : Char → Bool) (hn : String → Bool)
    (pkgs : List Package) (w : Walk) (h : collectAllFrom isUpper hn pkgs = some w) :
    ∀ k v, w.typeThings.lookup k = some v → v.name = k :=
  (collectAllFrom_extends isUpper hn pkgs w h).2.2.2.2.2 (fun k v hl => by simp at hl)

theorem lookup_of_mem :
    ∀ (m : Table), (m.map Prod.fst).Nodup → ∀ kv ∈ m, m.lookup kv.1 = some kv.2
  | [], _, kv, hmem => by simp at hmem
  | (a, b) :: m, hnd, kv, hmem => by
    rw [List.map_cons, List.nodup_cons] at hnd
    rcases List.mem_cons.1 hmem with h | h
    · subst h; simp
    · have hne : ¬ kv.1 = a := by
        intro he
        have hk : kv.1 ∈ m.map Prod.fst := List.mem_map_of_mem Prod.fst h
        rw [he] at hk
        exact hnd.1 hk
      have h2 : (kv.1 == a) = false := by simpa using hne
      rw [List.lookup_cons, h2]
      exact lookup_of_mem m hnd.2 kv h

theorem mem_keys_of_lookup (m : Table) (k : String) (v : TypeThing)
    (h : m.lookup k = some v) : k ∈ m.map Prod.fst := by
  have h2 : (m.lookup k).isSome = true := by simp [h]
  obtain ⟨p, hp, hk⟩ := List.lookup_isSome_iff.1 h2
  have : k = p.1 := by simpa using hk
  exact this ▸ List.mem_map_of_mem Prod.fst hp

theorem names_eq_keys (m : Table) (hnd : (m.map Prod.fst).Nodup)
    (hinv : ∀ k v, m.lookup k = some v → v.name = k) :
    m.map (fun kv => kv.2.name) = m.map Prod.fst :=
  List.map_congr_left (fun kv hkv => hinv kv.1 kv.2 (lookup_of_mem m hnd kv hkv))

theorem receiverName_of_recvType (fd : FuncDecl) (T : String)
    (h : fd.recvType = some (.starExpr (.ident T)) ∨ fd.recvType = some (.ident T)) :
    receiverName fd = some T := by
  unfold FuncDecl.recvType at h
  unfold receiverName
  cases hr : fd.recv with
  | none => simp [hr] at h
  | some fl =>
    cases fl with
    | mk l =>
      cases l with
      | nil => simp [hr] at h
      | cons f rest =>
        cases f with
        | mk names type =>
          simp only [hr, Field.type, Option.some.injEq] at h
          rcases h with h | h <;> subst h <;> rfl

theorem mem_walkItems_of_declared (pkgs : List Package) (fd : FuncDecl)
    (h : fd ∈ declaredFuncs pkgs) : Item.func fd ∈ walkItems pkgs := by
  simp only [declaredFuncs, List.mem_filterMap] at h
  obtain ⟨d, hd, hfd⟩ := h
  simp only [walkItems, List.mem_flatMap]
  refine ⟨d, hd, ?_⟩
  cases d with
  | funcDecl fd2 =>
    simp only [Option.some.injEq] at hfd
    subst hfd
    simp [declItems]
  | badDecl => simp at hfd
  | genDecl tok specs => simp at hfd

/-- Claim C8: in the table `collectAllFrom` returns, at most one entry has the
key `T` and at most one the name `T`; every exported method declared with
receiver `*T` or with receiver `T` is among the operations of the entry under
`T`, whose name is `T` and which is then the one entry of that name. -/
theorem receivers_merged (isUpper : Char → Bool) (hn : String → Bool)
    (pkgs : List Package) (w : Walk) (h : collectAllFrom isUpper hn pkgs = some w)
    (T : String) :
    (w.typeThings.map Prod.fst).count T ≤ 1
    ∧ (w.typeThings.map (fun kv => kv.2.name)).count T ≤ 1
    ∧ ∀ fd ∈ declaredFuncs pkgs, IsExported isUpper fd.name = true →
        (fd.recvType = some (.starExpr (.ident T)) ∨ fd.recvType = some (.ident T)) →
        (w.typeThings.map (fun kv => kv.2.name)).count T = 1
        ∧ ∃ tt, w.typeThings.lookup T = some tt ∧ tt.name = T ∧ fd ∈ tt.funcs := by
  have hnd := collectAllFrom_keys_nodup isUpper hn pkgs w h
  have hinv := collectAllFrom_names isUpper hn pkgs w h
  have hnames := names_eq_keys w.typeThings hnd hinv
  refine ⟨List.nodup_iff_count_le_one.1 hnd T, ?_, ?_⟩
  · rw [hnames]
    exact List.nodup_iff_count_le_one.1 hnd T
  · intro fd hfd hx hrecv
    have hr := receiverName_of_recvType fd T hrecv
    have hfuncs := (collectAllFrom_extends isUpper hn pkgs w h).2.1 T
    have hmem : fd ∈ entryFuncs w.typeThings T := by
      rw [hfuncs]
      refine List.mem_append_right _ (List.mem_flatMap.2 ⟨.func fd, ?_, ?_⟩)
      · exact mem_walkItems_of_declared pkgs fd hfd
      · simp [itemFuncs, hx, hr]
    unfold entryFuncs at hmem
    cases hl : w.typeThings.lookup T with
    | none => simp [hl] at hmem
    | some tt =>
      simp only [hl] at hmem
      refine ⟨?_, tt, rfl, hinv T tt hl, hmem⟩
      rw [hnames]
      exact List.count_eq_one_of_mem hnd (mem_keys_of_lookup _ _ _ hl)

/-- Witness for C8: `Show` with receiver `*Widget` and `Close` with receiver
`Widget`, declared in two files, end in the one entry named `Widget`. -/
theorem receivers_merged_witness :
    ∃ w, collectAllFrom Char.isUpper (fun _ => false) mixedDir = some w
      ∧ (w.typeThings.map (fun kv => kv.2.name)).count "Widget" = 1
      ∧ (∃ tt, w.typeThings.lookup "Widget" = some tt ∧ tt.name = "Widget"
          ∧ widgetShow ∈ tt.funcs)
      ∧ (∃ tt, w.typeThings.lookup "Widget" = some tt ∧ tt.name = "Widget"
          ∧ widgetClose ∈ tt.funcs) := by
  cases h : collectAllFrom Char.isUpper (fun _ => false) mixedDir with
  | none =>
    have h2 : (collectAllFrom Char.isUpper (fun _ => false) mixedDir).isSome = true := by decide
    simp [h] at h2
  | some w =>
    have hd : declaredFuncs mixedDir = [widgetShow, widgetClose] := rfl
    have hs := (receivers_merged Char.isUpper (fun _ => false) mixedDir w h "Widget").2.2
      widgetShow (by rw [hd]; exact List.mem_cons_self _ _) (by decide) (Or.inl rfl)
    have hc := (receivers_merged Char.isUpper (fun _ => false) mixedDir w h "Widget").2.2
      widgetClose (by rw [hd]; exact List.mem_cons_of_mem _ (List.mem_cons_self _ _))
      (by decide) (Or.inr rfl)
    exact ⟨w, rfl, hs.1, hs.2, hc.2⟩

/-! ### Two orders of the same walk -/

theorem walkItems_perm (pkgs1 pkgs2 : List Package)
    (h : (allFiles pkgs1).Perm (allFiles pkgs2)) :
    (walkItems pkgs1).Perm (walkItems pkgs2) := by
  unfold walkItems selectedDecls
  exact List.Perm.flatMap_right _ (List.Perm.flatMap_right _ (h.filter _))

theorem collectItem_isSome_indep (isUpper : Char → Bool) (st st1 : Walk) (it : Item) :
    (collectItem isUpper st it).isSome = (collectItem isUpper st1 it).isSome := by
  cases it with
  | func fd =>
    simp only [collectItem, collectFuncDecl]
    split
    · cases receiverName fd <;> rfl
    · rfl
  | spec sp =>
    cases sp with
    | importSpec p => rfl
    | valueSpec ns => rfl
    | typeSpec name type =>
      simp only [collectItem, collectSpec]
      split
      · cases type <;> rfl
      · rfl

theorem foldlM_isSome (isUpper : Char → Bool) :
    ∀ (items : List Item) (st : Walk),
      (∀ it ∈ items, ∀ s, (collectItem isUpper s it).isSome = true) →
      (items.foldlM (collectItem isUpper) st).isSome = true
  | [], st, _ => rfl
  | it :: rest, st, h => by
    simp only [List.foldlM_cons]
    obtain ⟨s1, hs1⟩ := Option.isSome_iff_exists.1 (h it (List.mem_cons_self _ _) st)
    rw [hs1]
    exact foldlM_isSome isUpper rest s1 (fun i hi => h i (List.mem_cons_of_mem _ hi))

theorem foldlM_some_forall (isUpper : Char → Bool) :
    ∀ (items : List Item) (st st1 : Walk),
      items.foldlM (collectItem isUpper) st = some st1 →
      ∀ it ∈ items, ∀ s, (collectItem isUpper s it).isSome = true
  | [], _, _, _, it, hit, _ => by simp at hit
  | i0 :: rest, st, st1, h, it, hit, s => by
    simp only [List.foldlM_cons] at h
    cases hc : collectItem isUpper st i0 with
    | none => simp [hc] at h
    | some s1 =>
      simp only [hc] at h
      rcases List.mem_cons.1 hit with he | he
      · subst he
        rw [collectItem_isSome_indep isUpper s st it, hc]
        rfl
      · exact foldlM_some_forall isUpper rest s1 st1 h it he s

theorem mem_itemStructs_of_parents (isUpper : Char → Bool) (k : String) (it : Item)
    (h : itemParents isUpper k it ≠ []) : k ∈ itemStructs isUpper it := by
  cases it with
  | func fd => simp [itemParents] at h
  | spec sp =>
    cases sp with
    | importSpec p => simp [itemParents] at h
    | valueSpec ns => simp [itemParents] at h
    | typeSpec name type =>
      cases type with
      | structType fields =>
        by_cases hx : IsExported isUpper name = true ∧ name = k
        · obtain ⟨hx1, hx2⟩ := hx
          subst hx2
          simp [itemStructs, hx1]
        · simp [itemParents, hx] at h
      | _ => simp [itemParents] at h

theorem flatMap_itemParents_perm (isUpper : Char → Bool) (k : String) {l1 l2 : List Item}
    (hp : l1.Perm l2) (hnd : (l1.flatMap (itemStructs isUpper)).Nodup) :
    l1.flatMap (itemParents isUpper k) = l2.flatMap (itemParents isUpper k) := by
  induction hp with
  | nil => rfl
  | cons x _ ih =>
    simp only [List.flatMap_cons] at hnd ⊢
    rw [ih (List.nodup_append.1 hnd).2.1]
  | swap x y l =>
    simp only [List.flatMap_cons] at hnd ⊢
    by_cases hx : itemParents isUpper k x = []
    · simp [hx]
    · by_cases hy : itemParents isUpper k y = []
      · simp [hy]
      · exfalso
        have hkx := mem_itemStructs_of_parents isUpper k x hx
        have hky := mem_itemStructs_of_parents isUpper k y hy
        exact (List.nodup_append.1 hnd).2.2 hky (List.mem_append_left _ hkx)
  | trans h1 _ ih1 ih2 =>
    rw [ih1 hnd]
    exact ih2 ((h1.flatMap_right _).nodup_iff.1 hnd)

theorem eq_of_map_eq_of_inj {α β : Type} (f : α → β) :
    ∀ (l1 l2 : List α), l1.map f = l2.map f →
      (∀ a ∈ l1, ∀ b ∈ l2, f a = f b → a = b) → l1 = l2
  | [], [], _, _ => rfl
  | [], _ :: _, h, _ => by simp at h
  | _ :: _, [], h, _ => by simp at h
  | a :: l1, b :: l2, h, inj => by
    simp only [List.map_cons, List.cons.injEq] at h
    have hab : a = b := inj a (List.mem_cons_self _ _) b (List.mem_cons_self _ _) h.1
    rw [hab, eq_of_map_eq_of_inj f l1 l2 h.2
      (fun x hx y hy => inj x (List.mem_cons_of_mem _ hx) y (List.mem_cons_of_mem _ hy))]

theorem sortByName_eq_of_perm {l1 l2 : List FuncDecl} (hp : l1.Perm l2)
    (hnd : (l1.map FuncDecl.name).Nodup) : sortByName l1 = sortByName l2 := by
  apply eq_of_map_eq_of_inj FuncDecl.name _ _ (sortByName_names_of_perm hp)
  intro a ha b hb hab
  have ha1 : a ∈ l1 := (sortByName_perm l1).mem_iff.1 ha
  have hb1 : b ∈ l1 := hp.mem_iff.2 ((sortByName_perm l2).mem_iff.1 hb)
  exact List.inj_on_of_nodup_map hnd ha1 hb1 hab

theorem exportInterface_congr (hn : String → Bool) (name : String) {e1 e2 : TypeThing}
    (h : SameEntry e1 e2) : exportInterface hn name e1 = exportInterface hn name e2 := by
  obtain ⟨-, hp, hs, hl⟩ := h
  simp only [exportInterface, hp, hs, hl]

theorem exportAllLoop_congr (hn : String → Bool) {l1 l2 : List TypeThing}
    (h : List.Forall₂ SameEntry l1 l2) : exportAllLoop hn l1 = exportAllLoop hn l2 := by
  induction h with
  | nil => rfl
  | cons hab _ ih =>
    simp only [exportAllLoop, ih, hab.1, exportInterface_congr hn _ hab]

theorem writeTesters_congr (iname : String) {l1 l2 : List TypeThing}
    (h : List.Forall₂ SameEntry l1 l2) :
    ∀ out, writeTesters iname l1 out = writeTesters iname l2 out := by
  induction h with
  | nil => intro out; rfl
  | cons hab _ ih =>
    intro out
    simp only [writeTesters, hab.1]
    exact ih _

theorem forall₂_of_map_eq {α β : Type} (f : α → β) (R : α → α → Prop) :
    ∀ (l1 l2 : List α), l1.map f = l2.map f →
      (∀ a ∈ l1, ∀ b ∈ l2, f a = f b → R a b) → List.Forall₂ R l1 l2
  | [], [], _, _ => List.Forall₂.nil
  | [], _ :: _, h, _ => by simp at h
  | _ :: _, [], h, _ => by simp at h
  | a :: l1, b :: l2, h, hr => by
    simp only [List.map_cons, List.cons.injEq] at h
    exact List.Forall₂.cons (hr a (List.mem_cons_self _ _) b (List.mem_cons_self _ _) h.1)
      (forall₂_of_map_eq f R l1 l2 h.2
        (fun x hx y hy => hr x (List.mem_cons_of_mem _ hx) y (List.mem_cons_of_mem _ hy)))

theorem sortedTypeThings_perm (m : Table) : (sortedTypeThings m).Perm (m.map Prod.snd) :=
  List.perm_insertionSort ifaceByNameLE _

theorem sortedTypeThings_names (m : Table) :
    ((sortedTypeThings m).map TypeThing.name).Pairwise strLE := by
  haveI : IsTotal TypeThing ifaceByNameLE := ⟨fun a b => strLE_total a.name b.name⟩
  haveI : IsTrans TypeThing ifaceByNameLE := ⟨fun _ _ _ h1 h2 => strLE_trans h1 h2⟩
  exact List.pairwise_map.2 (List.sorted_insertionSort ifaceByNameLE _)

theorem lookup_isSome_of_mem_keys (m : Table) (k : String) (h : k ∈ m.map Prod.fst) :
    (m.lookup k).isSome = true := by
  obtain ⟨kv, hkv, hfst⟩ := List.mem_map.1 h
  exact List.lookup_isSome_iff.2 ⟨kv, hkv, by simp [hfst]⟩

/-- What two walks over rearrangements of the same steps agree on. -/
theorem walks_agree (isUpper : Char → Bool) (hn : String → Bool) (w1 w2 : Walk)
    (items1 items2 : List Item)
    (E1 : Extends isUpper { typeThings := [], hasName := hn } w1 items1)
    (E2 : Extends isUpper { typeThings := [], hasName := hn } w2 items2)
    (hperm : items1.Perm items2)
    (hops : ∀ k tt, w1.typeThings.lookup k = some tt → (tt.funcs.map FuncDecl.name).Nodup)
    (htypes : (items1.flatMap (itemStructs isUpper)).Nodup) :
    w1.hasName = w2.hasName
    ∧ (∀ k, (w1.typeThings.lookup k).isSome = (w2.typeThings.lookup k).isSome)
    ∧ (∀ k e1 e2, w1.typeThings.lookup k = some e1 → w2.typeThings.lookup k = some e2 →
        SameEntry e1 e2) := by
  obtain ⟨a1, b1, c1, d1, -, f1⟩ := E1
  obtain ⟨a2, b2, c2, d2, -, f2⟩ := E2
  have hinv1 := f1 (fun k v hl => by simp at hl)
  have hinv2 := f2 (fun k v hl => by simp at hl)
  refine ⟨?_, ?_, ?_⟩
  · funext n
    rw [d1 n, d2 n]
    have : n ∈ items1.flatMap (itemStructs isUpper) ↔ n ∈ items2.flatMap (itemStructs isUpper) :=
      (hperm.flatMap_right _).mem_iff
    simp [this]
  · intro k
    have h1 := a1 k
    have h2 := a2 k
    have : k ∈ items1.flatMap (itemKeys isUpper) ↔ k ∈ items2.flatMap (itemKeys isUpper) :=
      (hperm.flatMap_right _).mem_iff
    rw [this] at h1
    exact Bool.eq_iff_iff.2 (h1.trans h2.symm)
  · intro k e1 e2 hl1 hl2
    have hf1 : e1.funcs = items1.flatMap (itemFuncs isUpper k) := by
      have := b1 k
      simpa [entryFuncs, hl1] using this
    have hf2 : e2.funcs = items2.flatMap (itemFuncs isUpper k) := by
      have := b2 k
      simpa [entryFuncs, hl2] using this
    have hp1 : e1.parents = items1.flatMap (itemParents isUpper k) := by
      have := c1 k
      simpa [entryParents, hl1] using this
    have hp2 : e2.parents = items2.flatMap (itemParents isUpper k) := by
      have := c2 k
      simpa [entryParents, hl2] using this
    have hfp : e1.funcs.Perm e2.funcs := by
      rw [hf1, hf2]
      exact hperm.flatMap_right _
    refine ⟨?_, ?_, ?_, hfp.length_eq⟩
    · rw [hinv1 k e1 hl1, hinv2 k e2 hl2]
    · rw [hp1, hp2]
      exact flatMap_itemParents_perm isUpper k hperm htypes
    · exact sortByName_eq_of_perm hfp (hops k e1 hl1)

theorem sorted_entries_agree (t1 t2 : Table)
    (nd1 : (t1.map Prod.fst).Nodup) (nd2 : (t2.map Prod.fst).Nodup)
    (hinv1 : ∀ k v, t1.lookup k = some v → v.name = k)
    (hinv2 : ∀ k v, t2.lookup k = some v → v.name = k)
    (hsome : ∀ k, (t1.lookup k).isSome = (t2.lookup k).isSome)
    (hsame : ∀ k e1 e2, t1.lookup k = some e1 → t2.lookup k = some e2 → SameEntry e1 e2) :
    List.Forall₂ SameEntry (sortedTypeThings t1) (sortedTypeThings t2) := by
  have hkeys : (t1.map Prod.fst).Perm (t2.map Prod.fst) := by
    refine (List.perm_ext_iff_of_nodup nd1 nd2).2 (fun k => ⟨fun h => ?_, fun h => ?_⟩)
    · have h2 := lookup_isSome_of_mem_keys t1 k h
      rw [hsome k] at h2
      obtain ⟨v, hv⟩ := Option.isSome_iff_exists.1 h2
      exact mem_keys_of_lookup t2 k v hv
    · have h2 := lookup_isSome_of_mem_keys t2 k h
      rw [← hsome k] at h2
      obtain ⟨v, hv⟩ := Option.isSome_iff_exists.1 h2
      exact mem_keys_of_lookup t1 k v hv
  have hn1 : ((sortedTypeThings t1).map TypeThing.name).Perm (t1.map Prod.fst) := by
    have := (sortedTypeThings_perm t1).map TypeThing.name
    rw [List.map_map] at this
    rw [← names_eq_keys t1 nd1 hinv1]
    exact this
  have hn2 : ((sortedTypeThings t2).map TypeThing.name).Perm (t2.map Prod.fst) := by
    have := (sortedTypeThings_perm t2).map TypeThing.name
    rw [List.map_map] at this
    rw [← names_eq_keys t2 nd2 hinv2]
    exact this
  have hnames : (sortedTypeThings t1).map TypeThing.name
      = (sortedTypeThings t2).map TypeThing.name :=
    sorted_names_unique ((hn1.trans hkeys).trans hn2.symm)
      (sortedTypeThings_names t1) (sortedTypeThings_names t2)
  refine forall₂_of_map_eq TypeThing.name SameEntry _ _ hnames ?_
  intro e1 he1 e2 he2 hname
  obtain ⟨kv1, hkv1, hs1⟩ := List.mem_map.1 ((sortedTypeThings_perm t1).mem_iff.1 he1)
  obtain ⟨kv2, hkv2, hs2⟩ := List.mem_map.1 ((sortedTypeThings_perm t2).mem_iff.1 he2)
  have hl1 := lookup_of_mem t1 nd1 kv1 hkv1
  have hl2 := lookup_of_mem t2 nd2 kv2 hkv2
  rw [hs1] at hl1
  rw [hs2] at hl2
  have hk : kv1.1 = kv2.1 := by
    rw [← hinv1 _ _ hl1, ← hinv2 _ _ hl2]
    exact hname
  rw [← hk] at hl2
  exact hsame kv1.1 e1 e2 hl1 hl2

theorem global_lookup_agree (t1 t2 : Table)
    (hsome : ∀ k, (t1.lookup k).isSome = (t2.lookup k).isSome)
    (hsame : ∀ k e1 e2, t1.lookup k = some e1 → t2.lookup k = some e2 → SameEntry e1 e2) :
    (t1.lookup "<global>" = none ∧ t2.lookup "<global>" = none)
    ∨ ∃ e1 e2, t1.lookup "<global>" = some e1 ∧ t2.lookup "<global>" = some e2
        ∧ SameEntry e1 e2 := by
  have hs := hsome "<global>"
  cases h1 : t1.lookup "<global>" with
  | none =>
    cases h2 : t2.lookup "<global>" with
    | none => exact Or.inl ⟨rfl, rfl⟩
    | some e2 => simp [h1, h2] at hs
  | some e1 =>
    cases h2 : t2.lookup "<global>" with
    | none => simp [h1, h2] at hs
    | some e2 => exact Or.inr ⟨e1, e2, rfl, rfl, hsame _ e1 e2 h1 h2⟩

/-- What the sort does achieve: when no entry holds two operations of the same
name and no exported struct type is declared twice, two walks that visit the
same files in any two orders both return, and the buffers `out` of every
contract and of the forwarding implementation, and the conformance tester, are
the same for the two tables.  Nothing is said of the import lines, which are
written in the order of a range over a map. -/
theorem bodies_same_for_all_walk_orders (isUpper : Char → Bool) (hn : String → Bool)
    (pkgs1 pkgs2 : List Package) (w1 : Walk) (iname pname proot : String)
    (hperm : (allFiles pkgs1).Perm (allFiles pkgs2))
    (h1 : collectAllFrom isUpper hn pkgs1 = some w1)
    (hops : ∀ k tt, w1.typeThings.lookup k = some tt → (tt.funcs.map FuncDecl.name).Nodup)
    (htypes : (declaredStructs isUpper pkgs1).Nodup) :
    ∃ w2, collectAllFrom isUpper hn pkgs2 = some w2
      ∧ (exportAllInterfaces w1.hasName w1.typeThings).map
            (List.map (fun ne => (ne.1, ne.2.out)))
          = (exportAllInterfaces w2.hasName w2.typeThings).map
              (List.map (fun ne => (ne.1, ne.2.out)))
      ∧ (exportGlobalInterface w1.hasName w1.typeThings iname).map
            (Option.map (fun e => e.out))
          = (exportGlobalInterface w2.hasName w2.typeThings iname).map
              (Option.map (fun e => e.out))
      ∧ (exportGlobalImpl w1.hasName w1.typeThings iname pname proot).map
            (Option.map (fun e => e.out))
          = (exportGlobalImpl w2.hasName w2.typeThings iname pname proot).map
              (Option.map (fun e => e.out))
      ∧ exportTesterFile w1.typeThings iname pname proot
          = exportTesterFile w2.typeThings iname pname proot := by
  have hitems := walkItems_perm pkgs1 pkgs2 hperm
  have hall : ∀ it ∈ walkItems pkgs2, ∀ s, (collectItem isUpper s it).isSome = true := by
    intro it hit s
    rw [collectAllFrom_eq_items] at h1
    exact foldlM_some_forall isUpper _ _ _ h1 it (hitems.mem_iff.2 hit) s
  obtain ⟨w2, h2⟩ := Option.isSome_iff_exists.1
    (foldlM_isSome isUpper (walkItems pkgs2) { typeThings := [], hasName := hn } hall)
  rw [← collectAllFrom_eq_items] at h2
  have E1 := collectAllFrom_extends isUpper hn pkgs1 w1 h1
  have E2 := collectAllFrom_extends isUpper hn pkgs2 w2 h2
  obtain ⟨hname, hsome, hsame⟩ :=
    walks_agree isUpper hn w1 w2 _ _ E1 E2 hitems hops htypes
  have hsorted := sorted_entries_agree w1.typeThings w2.typeThings
    (collectAllFrom_keys_nodup isUpper hn pkgs1 w1 h1)
    (collectAllFrom_keys_nodup isUpper hn pkgs2 w2 h2)
    (collectAllFrom_names isUpper hn pkgs1 w1 h1)
    (collectAllFrom_names isUpper hn pkgs2 w2 h2) hsome hsame
  have full : exportAllInterfaces w1.hasName w1.typeThings
        = exportAllInterfaces w2.hasName w2.typeThings
      ∧ exportGlobalInterface w1.hasName w1.typeThings iname
        = exportGlobalInterface w2.hasName w2.typeThings iname
      ∧ exportGlobalImpl w1.hasName w1.typeThings iname pname proot
        = exportGlobalImpl w2.hasName w2.typeThings iname pname proot
      ∧ exportTesterFile w1.typeThings iname pname proot
        = exportTesterFile w2.typeThings iname pname proot := by
    refine ⟨?_, ?_, ?_, ?_⟩
    · simp only [exportAllInterfaces, ← hname]
      exact exportAllLoop_congr w1.hasName hsorted
    · simp only [exportGlobalInterface, ← hname]
      rcases global_lookup_agree _ _ hsome hsame with ⟨g1, g2⟩ | ⟨e1, e2, g1, g2, hs⟩
      · rw [g1, g2]
      · simp only [g1, g2]
        rw [exportInterface_congr w1.hasName iname hs]
    · simp only [exportGlobalImpl, ← hname]
      rcases global_lookup_agree _ _ hsome hsame with ⟨g1, g2⟩ | ⟨e1, e2, g1, g2, hs⟩
      · rw [g1, g2]
      · simp only [g1, g2]
        rw [hs.2.2.1]
    · simp only [exportTesterFile]
      rw [writeTesters_congr iname hsorted]
  exact ⟨w2, h2, by rw [full.1], by rw [full.2.1], by rw [full.2.2.1], full.2.2.2⟩

set_option maxRecDepth 8000 in
/-- Claim C9: the entry `Button`, with the parent `gtk.Widget` and an operation
that takes a `glib.Object`, leaves two keys in `currentImports`; the file text
for the two orders in which a range over that map may visit them differs, so
two runs on the same directory need not write the same file.  Besides, with
`Widget` declared in two files with different parents, or with two operations
named `Show` in two files, the contract text itself changes with the order in
which the two files are visited. -/
theorem generated_files_not_reproducible :
    (exportInterface (fun _ => false) "Button" buttonEntry).map (fun e => e.imports)
      = some ["gtk_iface", "glib_iface"]
    ∧ ["gtk_iface", "glib_iface"].Perm ["glib_iface", "gtk_iface"]
    ∧ (exportInterface (fun _ => false) "Button" buttonEntry).map
          (fun e => interfaceFile ["gtk_iface", "glib_iface"] e.out)
        ≠ (exportInterface (fun _ => false) "Button" buttonEntry).map
          (fun e => interfaceFile ["glib_iface", "gtk_iface"] e.out)
    ∧ (exportInterface (fun _ => false) "Button" buttonEntry).map
          (fun e => interfaceFile ["glib_iface", "gtk_iface"] e.out)
        = some ("package iface\n\n"
            ++ "import glib_iface \"github.com/gotk3/gotk3/glib/iface\"\n"
            ++ "import gtk_iface \"github.com/gotk3/gotk3/gtk/iface\"\n" ++ "\n"
            ++ "type Button interface \x7b\n" ++ "    gtk_iface.Widget\n" ++ "\n"
            ++ "    Bind(glib_iface.Object)\n" ++ "\x7d // end of Button\n\n"
            ++ "func AssertButton(_ Button) \x7b\x7d\n")
    ∧ (allFiles [{ files := [widgetX11, widgetQuartz] }]).Perm
        (allFiles [{ files := [widgetQuartz, widgetX11] }])
    ∧ contractTextOf [{ files := [widgetX11, widgetQuartz] }] "Widget"
        = some ("type Widget interface \x7b\n" ++ "    X11Base\n" ++ "    QuartzBase\n"
            ++ "\x7d // end of Widget\n\n" ++ "func AssertWidget(_ Widget) \x7b\x7d\n")
    ∧ contractTextOf [{ files := [widgetQuartz, widgetX11] }] "Widget"
        = some ("type Widget interface \x7b\n" ++ "    QuartzBase\n" ++ "    X11Base\n"
            ++ "\x7d // end of Widget\n\n" ++ "func AssertWidget(_ Widget) \x7b\x7d\n")
    ∧ contractTextOf [{ files := [showFile, showPlainFile] }] "Widget"
        = some ("type Widget interface \x7b\n" ++ "    Show() error\n" ++ "    Show()\n"
            ++ "\x7d // end of Widget\n\n" ++ "func AssertWidget(_ Widget) \x7b\x7d\n")
    ∧ contractTextOf [{ files := [showPlainFile, showFile] }] "Widget"
        = some ("type Widget interface \x7b\n" ++ "    Show()\n" ++ "    Show() error\n"
            ++ "\x7d // end of Widget\n\n" ++ "func AssertWidget(_ Widget) \x7b\x7d\n") := by
  refine ⟨by decide, List.Perm.swap _ _ _, by decide, by decide, ?_, by decide, by decide,
    by decide, by decide⟩
  simp only [allFiles, List.flatMap_cons, List.flatMap_nil, List.append_nil]
  exact List.Perm.swap _ _ _

/-! ### Qualified names -/

/-- Claim C11: a qualified name `ns.Sym` with `ns` an identifier renders as
`ns_iface.Sym` when `ns` is one of cairo, gdk, gtk, glib, pango and external
substitution is on, and as `ns.Sym` otherwise, whatever `hasName` holds and
whatever the local-substitution flag is. -/
theorem genType_qualified (hasName : String → Bool) (ns sel : String) (wi wio : Bool)
    (imp : Imports) :
    (genType hasName (.selectorExpr (.ident ns) sel) wi wio imp).map Prod.fst
      = some (if ns ∈ ["cairo", "gdk", "gtk", "glib", "pango"] ∧ wio = true
          then ns ++ "_iface" ++ "." ++ sel else ns ++ "." ++ sel) := by
  have hk : knownPrefixes ns = true ↔ ns ∈ ["cairo", "gdk", "gtk", "glib", "pango"] := by
    simp [knownPrefixes, or_assoc]
  have hp : genType hasName (.ident ns) false false imp = some (ns, imp) := by
    simp [genType]
  simp only [genType, hp, Option.map_some']
  by_cases h1 : ns ∈ ["cairo", "gdk", "gtk", "glib", "pango"]
  · have h2 := hk.2 h1
    cases wio <;> simp [h1, h2]
  · have h2 : knownPrefixes ns = false := by
      cases hh : knownPrefixes ns with
      | false => rfl
      | true => exact absurd (hk.1 hh) h1
    simp [h1, h2]

/-! ### Contract-mode signatures -/

/-- Claim C15 as stated fails: for `func New() Widget` with `Widget` a discovered
type, `genInterfaceDef` gives `New() Widget`, while the name followed by
`genFuncType` with local substitution on is `New() iface.Widget`. -/
theorem genInterfaceDef_not_iface_mode :
    genInterfaceDef (fun n => n == "Widget") newWidget [] = some ("New() Widget", [])
    ∧ (genFuncType (fun n => n == "Widget") newWidget.type false true true []).map
        (fun r => (newWidget.name ++ r.1, r.2)) = some ("New() iface.Widget", [])
    ∧ genInterfaceDef (fun n => n == "Widget") newWidget []
      ≠ (genFuncType (fun n => n == "Widget") newWidget.type false true true []).map
          (fun r => (newWidget.name ++ r.1, r.2)) := by
  decide

/-- Claim C15, amended: the contract-mode signature is the name followed by
`genFuncType` without parameter names, with local substitution off and external
substitution on; in that mode every identifier is written bare. -/
theorem genInterfaceDef_mode (hasName : String → Bool) (fd : FuncDecl) (imp : Imports)
    (T : String) :
    genInterfaceDef hasName fd imp
      = (genFuncType hasName fd.type false false true imp).map (fun r => (fd.name ++ r.1, r.2))
    ∧ genType hasName (.ident T) false true imp = some (T, imp) := by
  refine ⟨?_, by simp [genType]⟩
  simp only [genInterfaceDef]
  cases genFuncType hasName fd.type false false true imp with
  | none => rfl
  | some r => rfl

/-! ### Receivers of other shapes -/

/-- Claim C17: the method `func (s Stack[T]) Len() int`, whose receiver type is
neither an identifier nor a pointer, is filed in the entry `<global>` although
it has a receiver. -/
theorem generic_receiver_filed_global :
    (collectAllFrom Char.isUpper (fun _ => false) stackDir).map
        (fun w => w.typeThings.map
          (fun kv => (kv.1, kv.2.name, kv.2.funcs.map (fun fd => (fd.name, fd.recv.isSome)))))
      = some [("<global>", "<global>", [("Len", true)])] := by
  decide

/-! ### Arrays and slices -/

/-- Claim C18: a slice node renders as `[]` and the element type, an array node
with the ellipsis length as `[...]` and the element type, and a node with any
other length expression makes `genType` panic. -/
theorem genType_array (hasName : String → Bool) (len elt : Expr) (wi wio : Bool)
    (imp : Imports) :
    genType hasName (.arrayType none elt) wi wio imp
      = (genType hasName elt wi wio imp).map (fun r => ("[]" ++ r.1, r.2))
    ∧ (∀ e, genType hasName (.arrayType (some (.ellipsis e)) elt) wi wio imp
        = (genType hasName elt wi wio imp).map (fun r => ("[...]" ++ r.1, r.2)))
    ∧ ((∀ e, len ≠ .ellipsis e) →
        genType hasName (.arrayType (some len) elt) wi wio imp = none) := by
  refine ⟨?_, ?_, ?_⟩
  · simp only [genType, arrayType]
    cases genType hasName elt wi wio imp <;> simp
  · intro e
    simp only [genType, arrayType]
    cases genType hasName elt wi wio imp <;> simp
  · intro h
    cases len with
    | ellipsis e => exact absurd rfl (h e)
    | _ => simp [genType, arrayType]

/-- Witness for C18: the array type `[4]int`, whose length is a literal. -/
theorem genType_array_witness :
    genType (fun _ => false) (.arrayType (some (.basicLit "4")) (.ident "int")) false true []
      = none :=
  (genType_array (fun _ => false) (.basicLit "4") (.ident "int") false true []).2.2
    (fun e h => by cases h)

/-! ### Pointers to other things -/

/-- Claim C19 as stated fails: the pointee of `**Widget` is a pointer node, not
a discovered type nor a qualified name, and with `Widget` a discovered type the
result is `Widget`, the rendering of the pointee without a marker in front;
likewise a pointer to the unknown identifier `gtk` renders as `gtk`. -/
theorem genType_star_star_dropped :
    genType (fun n => n == "Widget") (.starExpr (.ident "Widget")) false false []
      = some ("Widget", [])
    ∧ genType (fun n => n == "Widget") (.starExpr (.starExpr (.ident "Widget"))) false false []
      = some ("Widget", [])
    ∧ genType (fun n => n == "Widget") (.starExpr (.starExpr (.ident "Widget"))) false false []
      ≠ some ("*" ++ "Widget", [])
    ∧ genType (fun _ => false) (.starExpr (.ident "gtk")) false false [] = some ("gtk", []) := by
  decide

/-- Claim C19, amended: when `genType` returns on a pointer node and the text
`nm` of the pointee is not the name of a discovered type, its tail after six
bytes is not one either when local substitution is on, and its part before the
first dot is not a known namespace (nor one once `_iface` is removed, when
external substitution is on), the result is `*` followed by `nm`. -/
theorem genType_star_keeps_marker (hasName : String → Bool) (x : Expr) (wi wio : Bool)
    (imp imp1 : Imports) (nm : String)
    (hx : genType hasName x wi wio imp = some (nm, imp1))
    (hr : (genType hasName (.starExpr x) wi wio imp).isSome = true)
    (hk : hasName nm = false)
    (hs : wi = true → ∀ t, sliceFrom 6 nm.data = some (some t) → hasName t = false)
    (he : knownPrefixes (splitFirst nm) = false)
    (he2 : wio = true → knownPrefixes (replaceOnce (splitFirst nm) "_iface" "") = false) :
    genType hasName (.starExpr x) wi wio imp = some ("*" ++ nm, imp1) := by
  have hext : starExternal wio nm = false := by
    unfold starExternal
    cases wio with
    | false => simp [he]
    | true => simp [he, he2 rfl]
  have hkn : starKnown hasName wi nm = some false := by
    unfold starKnown
    cases wi with
    | false => simp [hk]
    | true =>
      cases hsl : sliceFrom 6 nm.data with
      | none =>
        simp [genType, hx, starKnown, hsl] at hr
      | some o =>
        cases o with
        | none => simp [hk]
        | some t => simp [hk, hs rfl t hsl]
  simp [genType, hx, hkn, hext]

/-- Witness for C19 amended: the pointer to the builtin `string`, with both
substitutions on. -/
theorem genType_star_keeps_marker_witness :
    genType (fun _ => false) (.starExpr (.ident "string")) true true []
      = some ("*" ++ "string", []) :=
  genType_star_keeps_marker (fun _ => false) (.ident "string") true true [] [] "string"
    (by decide) (by decide) rfl (fun _ _ _ => rfl) (by decide) (fun _ => by decide)

/-! ### Conformance tester -/

theorem writeTesters_out (iname : String) :
    ∀ (l : List TypeThing) (out : String),
      writeTesters iname l out
        = out ++ (l.map (fun tp => testerLine iname tp.name)).foldr (fun a acc => a ++ acc) ""
  | [], out => by simp [writeTesters]
  | tp :: rest, out => by
    simp only [writeTesters]
    rw [writeTesters_out iname rest]
    simp [testerLine, String.append_assoc]

theorem strLess_of_le_of_ne {a b : String} (h : strLE a b) (hne : a ≠ b) : strLess a b := by
  rcases strLess_trichotomy a b with h1 | h1 | h1
  · exact h1
  · exact absurd h1 hne
  · exact absurd h1 h

theorem sortedTypeThings_strict (m : Table)
    (hnd : (m.map (fun kv => kv.2.name)).Nodup) :
    ((sortedTypeThings m).map TypeThing.name).Pairwise strLess := by
  have hp : ((sortedTypeThings m).map TypeThing.name).Perm (m.map (fun kv => kv.2.name)) := by
    have := (sortedTypeThings_perm m).map TypeThing.name
    rw [List.map_map] at this
    exact this
  have hnd2 : ((sortedTypeThings m).map TypeThing.name).Nodup := hp.nodup_iff.2 hnd
  exact ((sortedTypeThings_names m).and hnd2).imp (fun h => strLess_of_le_of_ne h.1 h.2)

/-- Claim C14: for the table `collectAllFrom` returns, `sortedTypeThings` is a
rearrangement of the entries in strictly ascending order of name, and the body
of the initializer written by `exportTesterFile` is one assertion line per entry
in that order, `iface.AssertT(&T{})` for an entry `T` and
`iface.Assert<iname>(&Real<iname>{})` for `<global>`. -/
theorem exportTesterFile_lines (isUpper : Char → Bool) (hn : String → Bool)
    (pkgs : List Package) (w : Walk) (iname pname proot : String)
    (h : collectAllFrom isUpper hn pkgs = some w) :
    (sortedTypeThings w.typeThings).Perm (w.typeThings.map Prod.snd)
    ∧ ((sortedTypeThings w.typeThings).map TypeThing.name).Pairwise strLess
    ∧ exportTesterFile w.typeThings iname pname proot
        = "package " ++ pname ++ "\n\n" ++ "import \"" ++ proot ++ "/" ++ pname ++ "/iface\"\n\n"
          ++ "func init() \x7b\n"
          ++ ((sortedTypeThings w.typeThings).map (fun tp => testerLine iname tp.name)).foldr
              (fun a acc => a ++ acc) ""
          ++ "\x7d\n"
    ∧ (∀ T, T ≠ "<global>" → testerLine iname T = "  iface.Assert" ++ T ++ "(&" ++ T ++ "\x7b\x7d)\n")
    ∧ testerLine iname "<global>"
        = "  iface.Assert" ++ iname ++ "(&" ++ "Real" ++ iname ++ "\x7b\x7d)\n" := by
  have hnd := collectAllFrom_keys_nodup isUpper hn pkgs w h
  have hinv := collectAllFrom_names isUpper hn pkgs w h
  refine ⟨sortedTypeThings_perm _, ?_, ?_, ?_, ?_⟩
  · apply sortedTypeThings_strict
    rw [names_eq_keys w.typeThings hnd hinv]
    exact hnd
  · simp only [exportTesterFile, writeTesters_out]
  · intro T hT
    simp [testerLine, hT]
  · rw [testerLine, if_pos rfl, if_pos rfl]
    simp only [String.append_assoc]

/-- Witness for C14: the `Widget` directory, with the contract name `Gtk`. -/
theorem exportTesterFile_lines_witness :
    ∃ w, collectAllFrom Char.isUpper (fun _ => false) widgetDir = some w
      ∧ exportTesterFile w.typeThings "Gtk" "gtk" "example.org"
        = "package " ++ "gtk" ++ "\n\n" ++ "import \"" ++ "example.org" ++ "/" ++ "gtk"
          ++ "/iface\"\n\n" ++ "func init() \x7b\n"
          ++ ((sortedTypeThings w.typeThings).map (fun tp => testerLine "Gtk" tp.name)).foldr
              (fun a acc => a ++ acc) ""
          ++ "\x7d\n" := by
  have hs : (collectAllFrom Char.isUpper (fun _ => false) widgetDir).isSome = true := by decide
  obtain ⟨w, hw⟩ := Option.isSome_iff_exists.1 hs
  exact ⟨w, hw, (exportTesterFile_lines Char.isUpper (fun _ => false) widgetDir w
    "Gtk" "gtk" "example.org" hw).2.2.1⟩

/-! ### Which entries the table holds -/

theorem entryDefined_touch (m : Table) (k0 k : String) (f : TypeThing → TypeThing) (b : Bool)
    (hf : ∀ t, (f t).definition.isSome = (t.definition.isSome || b)) :
    entryDefined (touch m k0 f) k = (entryDefined m k || (decide (k = k0) && b)) := by
  simp only [entryDefined, lookup_touch]
  by_cases hk : k = k0
  · subst hk
    simp only [if_true, hf]
    cases m.lookup k <;> simp
  · simp [hk]

theorem collectItem_defined (isUpper : Char → Bool) (st st1 : Walk) (it : Item)
    (h : collectItem isUpper st it = some st1) (k : String) :
    entryDefined st1.typeThings k
      = (entryDefined st.typeThings k || decide (k ∈ itemStructs isUpper it)) := by
  cases it with
  | func fd =>
    simp only [collectItem, collectFuncDecl] at h
    by_cases hx : IsExported isUpper fd.name = true
    · simp only [hx, if_true] at h
      cases hr : receiverName fd with
      | none => simp [hr] at h
      | some recv =>
        simp only [hr, Option.some.injEq] at h
        rw [← h]
        have := entryDefined_touch st.typeThings recv k (fun t => t.addFunc fd) false
          (fun t => by simp [TypeThing.addFunc])
        simpa [touch, itemStructs] using this
    · simp only [hx] at h
      simp only [Bool.false_eq_true, if_false, Option.some.injEq] at h
      rw [← h]
      simp [itemStructs]
  | spec sp =>
    cases sp with
    | importSpec p => simp [collectItem, collectSpec] at h
    | valueSpec ns => simp [collectItem, collectSpec] at h
    | typeSpec name type =>
      simp only [collectItem, collectSpec] at h
      by_cases hx : IsExported isUpper name = true
      · simp only [hx, if_true] at h
        cases type with
        | structType fields =>
          simp only [Option.some.injEq] at h
          rw [← h]
          have := entryDefined_touch st.typeThings name k
            (fun tt => addParents fields { tt with definition := some fields }) true
            (fun t => by simp [addParents_eq])
          simpa [touch, itemStructs, hx] using this
        | _ =>
          simp only [Option.some.injEq] at h
          rw [← h]
          simp [itemStructs]
      · simp only [hx] at h
        simp only [Bool.false_eq_true, if_false, Option.some.injEq] at h
        rw [← h]
        cases type <;> simp [itemStructs, hx]

theorem foldlM_defined (isUpper : Char → Bool) :
    ∀ (items : List Item) (st st1 : Walk),
      items.foldlM (collectItem isUpper) st = some st1 → ∀ k,
      entryDefined st1.typeThings k
        = (entryDefined st.typeThings k || decide (k ∈ items.flatMap (itemStructs isUpper)))
  | [], st, st1, h, k => by
    simp only [List.foldlM_nil] at h
    have : st = st1 := by simpa using h
    rw [← this]
    simp
  | it :: rest, st, st1, h, k => by
    simp only [List.foldlM_cons] at h
    cases hc : collectItem isUpper st it with
    | none => simp [hc] at h
    | some s1 =>
      simp only [hc] at h
      rw [foldlM_defined isUpper rest s1 st1 h k, collectItem_defined isUpper st s1 it hc k]
      simp [Bool.or_assoc]

theorem mem_declared_of_walkItems (pkgs : List Package) (fd : FuncDecl)
    (h : Item.func fd ∈ walkItems pkgs) : fd ∈ declaredFuncs pkgs := by
  simp only [walkItems, List.mem_flatMap] at h
  obtain ⟨d, hd, hit⟩ := h
  simp only [declaredFuncs, List.mem_filterMap]
  refine ⟨d, hd, ?_⟩
  cases d with
  | funcDecl fd2 =>
    simp only [declItems, List.mem_singleton, Item.func.injEq] at hit
    rw [hit]
  | badDecl => simp [declItems] at hit
  | genDecl tok specs => cases tok <;> simp [declItems] at hit

theorem recvType_of_receiverName (fd : FuncDecl) (k : String)
    (h : receiverName fd = some k) (hk : k ≠ "<global>") :
    fd.recvType = some (.starExpr (.ident k)) ∨ fd.recvType = some (.ident k) := by
  unfold receiverName at h
  unfold FuncDecl.recvType
  cases hr : fd.recv with
  | none =>
    simp only [hr, Option.some.injEq] at h
    exact absurd h.symm hk
  | some fl =>
    cases fl with
    | mk l =>
      cases l with
      | nil => simp [hr] at h
      | cons f rest =>
        cases f with
        | mk names type =>
          simp only [hr] at h
          cases type with
          | ident n =>
            simp only [Option.some.injEq] at h
            subst h
            exact Or.inr rfl
          | starExpr x =>
            cases x with
            | ident n =>
              simp only [Option.some.injEq] at h
              subst h
              exact Or.inl rfl
            | _ => simp at h
          | _ =>
            simp only [Option.some.injEq] at h
            exact absurd h.symm hk

theorem mem_itemKeys (isUpper : Char → Bool) (k : String) (it : Item)
    (h : k ∈ itemKeys isUpper it) :
    (∃ fd, it = .func fd ∧ IsExported isUpper fd.name = true ∧ receiverName fd = some k)
    ∨ k ∈ itemStructs isUpper it := by
  cases it with
  | func fd =>
    by_cases hx : IsExported isUpper fd.name = true
    · simp only [itemKeys, hx, if_true, Option.mem_toList, Option.mem_def] at h
      exact Or.inl ⟨fd, rfl, hx, h⟩
    · simp [itemKeys, hx] at h
  | spec sp =>
    cases sp with
    | importSpec p => simp [itemKeys] at h
    | valueSpec ns => simp [itemKeys] at h
    | typeSpec name type =>
      cases type with
      | structType fields =>
        right
        simpa [itemKeys, itemStructs] using h
      | _ => simp [itemKeys] at h

theorem exported_of_mem_itemFuncs (isUpper : Char → Bool) (k : String) (it : Item)
    (fd : FuncDecl) (h : fd ∈ itemFuncs isUpper k it) : IsExported isUpper fd.name = true := by
  cases it with
  | func fd2 =>
    by_cases hx : IsExported isUpper fd2.name = true ∧ receiverName fd2 = some k
    · simp only [itemFuncs, hx, and_self, if_true, List.mem_singleton] at h
      rw [h]
      exact hx.1
    · simp [itemFuncs, hx] at h
  | spec sp => simp [itemFuncs] at h

/-- Claim C16: for `type Color int` with the exported method `String`, no
exported struct type is declared, yet the table holds an entry `Color`, without
definition and not marked as known, and the conformance tester asserts the
contract on the composite literal `&Color{}`. -/
theorem entry_without_struct :
    (collectAllFrom Char.isUpper (fun _ => false) colorDir).map
        (fun w => w.typeThings.map
          (fun kv => (kv.1, kv.2.definition.isSome, w.hasName kv.1,
            kv.2.funcs.map FuncDecl.name)))
      = some [("Color", false, false, ["String"])]
    ∧ declaredStructs Char.isUpper colorDir = []
    ∧ (collectAllFrom Char.isUpper (fun _ => false) colorDir).map
        (fun w => exportTesterFile w.typeThings "Gtk" "gtk" "example.org")
      = some ("package gtk\n\n" ++ "import \"example.org/gtk/iface\"\n\n"
          ++ "func init() \x7b\n" ++ "  iface.AssertColor(&Color\x7b\x7d)\n" ++ "\x7d\n") := by
  decide

/-- Where the entries of the table come from: every entry of the table
`collectAllFrom` returns other than `<global>` is named after an exported struct
type declaration or after the receiver type of an exported method; the entries
named after an exported struct declaration, and only they, have a definition,
and their names are marked as known; every operation stored in any entry has an
exported name. -/
theorem table_entries_origin (isUpper : Char → Bool) (hn : String → Bool)
    (pkgs : List Package) (w : Walk) (h : collectAllFrom isUpper hn pkgs = some w) :
    (∀ k tt, w.typeThings.lookup k = some tt → k ≠ "<global>" →
      k ∈ declaredStructs isUpper pkgs
      ∨ ∃ fd ∈ declaredFuncs pkgs, IsExported isUpper fd.name = true
          ∧ (fd.recvType = some (.starExpr (.ident k)) ∨ fd.recvType = some (.ident k)))
    ∧ (∀ k ∈ declaredStructs isUpper pkgs, w.hasName k = true
        ∧ ∃ tt, w.typeThings.lookup k = some tt ∧ tt.definition.isSome = true)
    ∧ (∀ k tt, w.typeThings.lookup k = some tt → tt.definition.isSome = true →
        k ∈ declaredStructs isUpper pkgs)
    ∧ (∀ k tt, w.typeThings.lookup k = some tt →
        ∀ fd ∈ tt.funcs, IsExported isUpper fd.name = true) := by
  obtain ⟨a, b, -, d, -, -⟩ := collectAllFrom_extends isUpper hn pkgs w h
  have hdef : ∀ k, entryDefined w.typeThings k
      = decide (k ∈ (walkItems pkgs).flatMap (itemStructs isUpper)) := by
    intro k
    rw [collectAllFrom_eq_items] at h
    have := foldlM_defined isUpper _ _ _ h k
    simpa [entryDefined] using this
  refine ⟨?_, ?_, ?_, ?_⟩
  · intro k tt hl hk
    have hs : (w.typeThings.lookup k).isSome = true := by simp [hl]
    rcases (a k).1 hs with h0 | h0
    · simp at h0
    · obtain ⟨it, hit, hkit⟩ := List.mem_flatMap.1 h0
      rcases mem_itemKeys isUpper k it hkit with ⟨fd, rfl, hx, hr⟩ | hst
      · exact Or.inr ⟨fd, mem_declared_of_walkItems pkgs fd hit, hx,
          recvType_of_receiverName fd k hr hk⟩
      · exact Or.inl (List.mem_flatMap.2 ⟨it, hit, hst⟩)
  · intro k hk
    have hk2 : k ∈ (walkItems pkgs).flatMap (itemStructs isUpper) := hk
    refine ⟨by rw [d k]; simp [hk2], ?_⟩
    have hd := hdef k
    simp only [hk2, decide_True] at hd
    unfold entryDefined at hd
    cases hl : w.typeThings.lookup k with
    | none => simp [hl] at hd
    | some tt =>
      simp only [hl] at hd
      exact ⟨tt, rfl, hd⟩
  · intro k tt hl hdf
    have hd := hdef k
    simp only [entryDefined, hl, hdf] at hd
    exact of_decide_eq_true hd.symm
  · intro k tt hl fd hfd
    have hf := b k
    simp only [entryFuncs, hl] at hf
    rw [hf] at hfd
    simp only [List.lookup_nil, List.nil_append] at hfd
    obtain ⟨it, -, hit⟩ := List.mem_flatMap.1 hfd
    exact exported_of_mem_itemFuncs isUpper k it fd hit

/-- The `Widget` directory, whose one entry is named after the exported struct
type `Widget`. -/
theorem table_entries_origin_witness :
    ∃ w, collectAllFrom Char.isUpper (fun _ => false) widgetDir = some w
      ∧ w.hasName "Widget" = true
      ∧ ∃ tt, w.typeThings.lookup "Widget" = some tt ∧ tt.definition.isSome = true := by
  have hs : (collectAllFrom Char.isUpper (fun _ => false) widgetDir).isSome = true := by decide
  obtain ⟨w, hw⟩ := Option.isSome_iff_exists.1 hs
  have hd : declaredStructs Char.isUpper widgetDir = ["Widget"] := by decide
  obtain ⟨h1, h2⟩ := (table_entries_origin Char.isUpper (fun _ => false) widgetDir w hw).2.1
    "Widget" (by rw [hd]; exact List.mem_singleton.2 rfl)
  exact ⟨w, hw, h1, h2⟩

/-! ### Referenced namespaces -/

theorem records_refl (imp : Imports) : Records imp imp [] :=
  ⟨fun h => h, fun q => by simp⟩

theorem records_trans {a b c : Imports} {q1 q2 : List String}
    (h1 : Records a b q1) (h2 : Records b c q2) : Records a c (q1 ++ q2) :=
  ⟨fun h => h2.1 (h1.1 h), fun q => by
    rw [h2.2 q, h1.2 q, List.mem_append]
    exact or_assoc⟩

theorem records_recordImport (imp : Imports) (p : String) :
    Records imp (recordImport imp p) [p] := by
  unfold recordImport
  by_cases hp : p ∈ imp
  · simp only [hp, if_true]
    refine ⟨fun h => h, fun q => ?_⟩
    constructor
    · exact fun h => Or.inl h
    · rintro (h | h)
      · exact h
      · rw [List.mem_singleton] at h
        exact h ▸ hp
  · simp only [hp, if_false]
    refine ⟨fun h => ?_, fun q => by simp⟩
    exact List.nodup_append.2 ⟨h, List.nodup_singleton _, by
      intro a ha hb
      rw [List.mem_singleton] at hb
      exact hp (hb ▸ ha)⟩

theorem text_at_nil (hn : String → Bool) (x : Expr) (wi wio : Bool) (imp i1 : Imports)
    (t : String) (h : genType hn x wi wio imp = some (t, i1)) :
    ∃ j, genType hn x wi wio [] = some (t, j) := by
  rcases fst_cases _ _ (genType_text_indep hn x wi wio imp []) with ⟨ha, -⟩ | ⟨u, i, j, ha, hb⟩
  · rw [h] at ha; simp at ha
  · rw [h] at ha
    simp only [Option.some.injEq, Prod.mk.injEq] at ha
    exact ⟨j, by rw [hb, ha.1]⟩

mutual
theorem genType_records (hn : String → Bool) :
    ∀ (e : Expr) (wi wio : Bool) (imp : Imports) (t : String) (imp1 : Imports),
      genType hn e wi wio imp = some (t, imp1) → Records imp imp1 (qualifiers hn e wi wio)
  | .ident name, wi, wio, imp, t, imp1, h => by
    simp only [genType] at h
    have : imp = imp1 := by
      split at h <;> [split at h; skip] <;> simp at h <;> exact h.2
    rw [← this, qualifiers]
    exact records_refl imp
  | .starExpr x, wi, wio, imp, t, imp1, h => by
    simp only [genType] at h
    cases hx : genType hn x wi wio imp with
    | none => simp [hx] at h
    | some r =>
      obtain ⟨nm, i1⟩ := r
      simp only [hx] at h
      have : i1 = imp1 := by
        cases hk : starKnown hn wi nm with
        | none => simp [hk] at h
        | some b =>
          cases b
          · simp only [hk] at h
            split at h <;> simp at h <;> exact h.2
          · simp [hk] at h
            exact h.2
      rw [qualifiers, ← this]
      exact genType_records hn x wi wio imp nm i1 hx
  | .selectorExpr x sel, wi, wio, imp, t, imp1, h => by
    simp only [genType] at h
    cases hx : genType hn x false false imp with
    | none => simp [hx] at h
    | some r =>
      obtain ⟨pref, i1⟩ := r
      simp only [hx, Option.some.injEq, Prod.mk.injEq] at h
      obtain ⟨j, hj⟩ := text_at_nil hn x false false imp i1 pref hx
      rw [qualifiers, hj, ← h.2]
      exact records_trans (genType_records hn x false false imp pref i1 hx)
        (records_recordImport i1 _)
  | .mapType key value, wi, wio, imp, t, imp1, h => by
    simp only [genType] at h
    cases hk : genType hn key wi wio imp with
    | none => simp [hk] at h
    | some r =>
      obtain ⟨k, i1⟩ := r
      simp only [hk] at h
      cases hv : genType hn value wi wio i1 with
      | none => simp [hv] at h
      | some r2 =>
        obtain ⟨v, i2⟩ := r2
        simp only [hv, Option.some.injEq, Prod.mk.injEq] at h
        rw [qualifiers, ← h.2]
        exact records_trans (genType_records hn key wi wio imp k i1 hk)
          (genType_records hn value wi wio i1 v i2 hv)
  | .interfaceType _, wi, wio, imp, t, imp1, h => by
    simp only [genType, Option.some.injEq, Prod.mk.injEq] at h
    rw [qualifiers, ← h.2]
    exact records_refl imp
  | .arrayType len elt, wi, wio, imp, t, imp1, h => by
    simp only [genType] at h
    cases hl : arrayType len with
    | none => simp [hl] at h
    | some l =>
      simp only [hl] at h
      cases hx : genType hn elt wi wio imp with
      | none => simp [hx] at h
      | some r =>
        obtain ⟨u, i1⟩ := r
        simp only [hx, Option.some.injEq, Prod.mk.injEq] at h
        rw [qualifiers, ← h.2]
        exact genType_records hn elt wi wio imp u i1 hx
  | .ellipsis none, wi, wio, imp, t, imp1, h => by simp [genType] at h
  | .ellipsis (some elt), wi, wio, imp, t, imp1, h => by
    simp only [genType] at h
    cases hx : genType hn elt wi wio imp with
    | none => simp [hx] at h
    | some r =>
      obtain ⟨u, i1⟩ := r
      simp only [hx, Option.some.injEq, Prod.mk.injEq] at h
      rw [qualifiers, ← h.2]
      exact genType_records hn elt wi wio imp u i1 hx
  | .funcType ft, wi, wio, imp, t, imp1, h => by
    simp only [genType] at h
    cases hx : genFuncType hn ft false wi wio imp with
    | none => simp [hx] at h
    | some r =>
      obtain ⟨u, i1⟩ := r
      simp only [hx, Option.some.injEq, Prod.mk.injEq] at h
      rw [qualifiers, ← h.2]
      exact genFuncType_records hn ft false wi wio imp u i1 hx
  | .structType _, wi, wio, imp, t, imp1, h => by simp [genType] at h
  | .basicLit _, wi, wio, imp, t, imp1, h => by simp [genType] at h
  | .parenExpr _, wi, wio, imp, t, imp1, h => by simp [genType] at h
  | .indexExpr _ _, wi, wio, imp, t, imp1, h => by simp [genType] at h
  | .chanType _, wi, wio, imp, t, imp1, h => by simp [genType] at h
termination_by structural e => e
theorem genField_records (hn : String → Bool) :
    ∀ (f : Field) (wn wi wio : Bool) (imp : Imports) (t : String) (imp1 : Imports),
      genField hn f wn wi wio imp = some (t, imp1) →
      Records imp imp1 (qualifiersField hn f wi wio)
  | .mk names type, wn, wi, wio, imp, t, imp1, h => by
    rw [qualifiersField]
    cases wn with
    | false =>
      simp only [genField, Bool.false_eq_true, if_false] at h
      exact genType_records hn type wi wio imp t imp1 h
    | true =>
      simp only [genField, if_true] at h
      cases names with
      | nil => simp at h
      | cons n ns =>
        simp only at h
        cases hx : genType hn type wi wio imp with
        | none => simp [hx] at h
        | some r =>
          obtain ⟨u, i1⟩ := r
          simp only [hx, Option.some.injEq, Prod.mk.injEq] at h
          rw [← h.2]
          exact genType_records hn type wi wio imp u i1 hx
termination_by structural f => f
theorem genFields_records (hn : String → Bool) :
    ∀ (l : List Field) (wn wi wio : Bool) (imp : Imports) (ts : List String) (imp1 : Imports),
      genFields hn l wn wi wio imp = some (ts, imp1) →
      Records imp imp1 (qualifiersFields hn l wi wio)
  | [], wn, wi, wio, imp, ts, imp1, h => by
    simp only [genFields, Option.some.injEq, Prod.mk.injEq] at h
    rw [qualifiersFields, ← h.2]
    exact records_refl imp
  | f :: fs, wn, wi, wio, imp, ts, imp1, h => by
    simp only [genFields] at h
    cases hf : genField hn f wn wi wio imp with
    | none => simp [hf] at h
    | some r =>
      obtain ⟨u, i1⟩ := r
      simp only [hf] at h
      cases hr : genFields hn fs wn wi wio i1 with
      | none => simp [hr] at h
      | some r2 =>
        obtain ⟨us, i2⟩ := r2
        simp only [hr, Option.some.injEq, Prod.mk.injEq] at h
        rw [qualifiersFields, ← h.2]
        exact records_trans (genField_records hn f wn wi wio imp u i1 hf)
          (genFields_records hn fs wn wi wio i1 us i2 hr)
termination_by structural l => l
theorem genResults_records (hn : String → Bool) :
    ∀ (r : Option FieldList) (wi wio : Bool) (imp : Imports) (t : String) (imp1 : Imports),
      genResults hn r wi wio imp = some (t, imp1) →
      Records imp imp1 (qualifiersResults hn r wi wio)
  | none, wi, wio, imp, t, imp1, h => by
    simp only [genResults, Option.some.injEq, Prod.mk.injEq] at h
    rw [qualifiersResults, ← h.2]
    exact records_refl imp
  | some (.mk l), wi, wio, imp, t, imp1, h => by
    simp only [genResults] at h
    cases hx : genFields hn l false wi wio imp with
    | none => simp [hx] at h
    | some r =>
      obtain ⟨us, i1⟩ := r
      simp only [hx, Option.some.injEq, Prod.mk.injEq] at h
      rw [qualifiersResults, ← h.2]
      exact genFields_records hn l false wi wio imp us i1 hx
termination_by structural r => r
theorem genParams_records (hn : String → Bool) :
    ∀ (p : FieldList) (wn wi wio : Bool) (imp : Imports) (t : String) (imp1 : Imports),
      genParams hn p wn wi wio imp = some (t, imp1) →
      Records imp imp1 (qualifiersParams hn p wi wio)
  | .mk l, wn, wi, wio, imp, t, imp1, h => by
    simp only [genParams] at h
    cases hx : genFields hn l wn wi wio imp with
    | none => simp [hx] at h
    | some r =>
      obtain ⟨us, i1⟩ := r
      simp only [hx, Option.some.injEq, Prod.mk.injEq] at h
      rw [qualifiersParams, ← h.2]
      exact genFields_records hn l wn wi wio imp us i1 hx
termination_by structural p => p
theorem genFuncType_records (hn : String → Bool) :
    ∀ (ft : FuncType) (wn wi wio : Bool) (imp : Imports) (t : String) (imp1 : Imports),
      genFuncType hn ft wn wi wio imp = some (t, imp1) →
      Records imp imp1 (qualifiersFuncType hn ft wi wio)
  | .mk params results, wn, wi, wio, imp, t, imp1, h => by
    simp only [genFuncType] at h
    cases hp : genParams hn params wn wi wio imp with
    | none => simp [hp] at h
    | some r =>
      obtain ⟨ps, i1⟩ := r
      simp only [hp] at h
      cases hr : genResults hn results wi wio i1 with
      | none => simp [hr] at h
      | some r2 =>
        obtain ⟨rs, i2⟩ := r2
        simp only [hr, Option.some.injEq, Prod.mk.injEq] at h
        rw [qualifiersFuncType, ← h.2]
        exact records_trans (genParams_records hn params wn wi wio imp ps i1 hp)
          (genResults_records hn results wi wio i1 rs i2 hr)
termination_by structural ft => ft
end

/-- Claim C12: when `genType` returns, every namespace that qualifies a name in
the rendering, at any depth, is a key of `currentImports`, every key that was
there before the call is still there, and nothing else has been added. -/
theorem genType_records_qualifiers (hn : String → Bool) (e : Expr) (wi wio : Bool)
    (imp : Imports) (t : String) (imp1 : Imports)
    (h : genType hn e wi wio imp = some (t, imp1)) :
    (∀ q ∈ qualifiers hn e wi wio, q ∈ imp1)
    ∧ (∀ q ∈ imp, q ∈ imp1)
    ∧ (∀ q ∈ imp1, q ∈ imp ∨ q ∈ qualifiers hn e wi wio) := by
  have hr := (genType_records hn e wi wio imp t imp1 h).2
  exact ⟨fun q hq => (hr q).2 (Or.inr hq), fun q hq => (hr q).2 (Or.inl hq),
    fun q hq => (hr q).1 hq⟩

/-- Witness for C12: the type `map[gtk.Widget]*func(o glib.Object) pango.Layout`
rendered with external substitution on, the key `x` being there before. -/
theorem genType_records_qualifiers_witness :
    qualifiers (fun _ => false) nestedType false true = ["gtk_iface", "glib_iface", "pango_iface"]
    ∧ (∀ q ∈ qualifiers (fun _ => false) nestedType false true,
        q ∈ ["x", "gtk_iface", "glib_iface", "pango_iface"])
    ∧ (∀ q ∈ ["x"], q ∈ ["x", "gtk_iface", "glib_iface", "pango_iface"]) := by
  have h := genType_records_qualifiers (fun _ => false) nestedType false true ["x"]
    "map[gtk_iface.Widget]*func(glib_iface.Object) pango_iface.Layout"
    ["x", "gtk_iface", "glib_iface", "pango_iface"] (by decide)
  exact ⟨by decide, h.1, h.2.1⟩

/-! ### Import lines -/

theorem writeImports_out :
    ∀ (l : List String) (realOut : String),
      writeImports l realOut = realOut ++ (l.map importLine).foldr (fun a acc => a ++ acc) ""
  | [], realOut => by simp [writeImports]
  | k :: rest, realOut => by
    simp only [writeImports]
    rw [writeImports_out rest]
    simp [importLine, String.append_assoc]

theorem writeParents_records (hn : String → Bool) :
    ∀ (ps : List Expr) (out : String) (imp : Imports) (out1 : String) (imp1 : Imports),
      writeParents hn ps out imp = some (out1, imp1) →
      Records imp imp1 (ps.flatMap (fun pd => qualifiers hn pd false true))
  | [], out, imp, out1, imp1, h => by
    simp only [writeParents, Option.some.injEq, Prod.mk.injEq] at h
    rw [← h.2]
    exact records_refl imp
  | pd :: rest, out, imp, out1, imp1, h => by
    simp only [writeParents] at h
    cases hg : genType hn pd false true imp with
    | none => simp [hg] at h
    | some r =>
      obtain ⟨t, i1⟩ := r
      simp only [hg] at h
      rw [List.flatMap_cons]
      exact records_trans (genType_records hn pd false true imp t i1 hg)
        (writeParents_records hn rest _ i1 out1 imp1 h)

theorem writeMethods_records (hn : String → Bool) :
    ∀ (fs : List FuncDecl) (out : String) (imp : Imports) (out1 : String) (imp1 : Imports),
      writeMethods hn fs out imp = some (out1, imp1) →
      Records imp imp1 (fs.flatMap (fun fd => qualifiersFuncType hn fd.type false true))
  | [], out, imp, out1, imp1, h => by
    simp only [writeMethods, Option.some.injEq, Prod.mk.injEq] at h
    rw [← h.2]
    exact records_refl imp
  | fd :: rest, out, imp, out1, imp1, h => by
    simp only [writeMethods, genInterfaceDef] at h
    cases hg : genFuncType hn fd.type false false true imp with
    | none => simp [hg] at h
    | some r =>
      obtain ⟨t, i1⟩ := r
      simp only [hg] at h
      rw [List.flatMap_cons]
      exact records_trans (genFuncType_records hn fd.type false false true imp t i1 hg)
        (writeMethods_records hn rest _ i1 out1 imp1 h)

/-- Claim C13: the keys of `currentImports` at the end of `exportInterface` are
distinct and are exactly the namespaces referenced in rendering the entry's
parents and operations; the file holds, after the package line, one import line
per key, made of the registered import string of the key or of the key itself,
then a blank line and the contract text. -/
theorem exportInterface_import_lines (hn : String → Bool) (name : String) (tp : TypeThing)
    (e : Emitted) (h : exportInterface hn name tp = some e) :
    e.imports.Nodup
    ∧ (∀ k, k ∈ e.imports ↔
        (k ∈ tp.parents.flatMap (fun pd => qualifiers hn pd false true)
          ∨ k ∈ tp.funcs.flatMap (fun fd => qualifiersFuncType hn fd.type false true)))
    ∧ e.file = "package iface\n\n"
        ++ (e.imports.map importLine).foldr (fun a acc => a ++ acc) "" ++ "\n" ++ e.out
    ∧ (∀ k v, importStrings k = some v → importLine k = "import " ++ v ++ "\n")
    ∧ (∀ k, importStrings k = none → importLine k = "import " ++ k ++ "\n") := by
  simp only [exportInterface] at h
  cases hp : writeParents hn tp.parents ("type " ++ name ++ " interface \x7b\n") [] with
  | none => simp [hp] at h
  | some r =>
    obtain ⟨out1, imp1⟩ := r
    simp only [hp] at h
    have R1 := writeParents_records hn _ _ _ _ _ hp
    cases hm : writeMethods hn (sortByName tp.funcs)
        (if (!tp.parents.isEmpty && decide (tp.funcs.length > 0)) = true then out1 ++ "\n"
          else out1) imp1 with
    | none => simp [hm] at h
    | some r2 =>
      obtain ⟨out3, imp2⟩ := r2
      simp only [hm, Option.some.injEq] at h
      have R2 := writeMethods_records hn _ _ _ _ _ hm
      have R := records_trans R1 R2
      rw [← h]
      refine ⟨R.1 List.nodup_nil, ?_, ?_, ?_, ?_⟩
      · intro k
        rw [R.2 k, List.mem_append]
        have hperm : k ∈ (sortByName tp.funcs).flatMap
              (fun fd => qualifiersFuncType hn fd.type false true)
            ↔ k ∈ tp.funcs.flatMap (fun fd => qualifiersFuncType hn fd.type false true) :=
          ((sortByName_perm tp.funcs).flatMap_right _).mem_iff
        rw [hperm]
        simp
      · simp only [writeImports_out]
      · intro k v hk
        simp [importLine, hk]
      · intro k hk
        simp [importLine, hk]

/-- Witness for C13: an entry with the parent `gtk.Widget` and one operation that
takes a `glib.Object`: the import lines are those of `gtk_iface` and
`glib_iface`. -/
theorem exportInterface_import_lines_witness :
    ∃ e, exportInterface (fun _ => false) "Button"
        { name := "Button", definition := none,
          parents := [.selectorExpr (.ident "gtk") "Widget"],
          funcs := [{ recv := none, name := "Bind",
                      type := .mk (.mk [.mk ["o"] (.selectorExpr (.ident "glib") "Object")])
                        none }] } = some e
      ∧ e.imports.Nodup
      ∧ e.imports = ["gtk_iface", "glib_iface"]
      ∧ e.file = "package iface\n\n"
          ++ (e.imports.map importLine).foldr (fun a acc => a ++ acc) "" ++ "\n" ++ e.out := by
  have hs : (exportInterface (fun _ => false) "Button"
        { name := "Button", definition := none,
          parents := [.selectorExpr (.ident "gtk") "Widget"],
          funcs := [{ recv := none, name := "Bind",
                      type := .mk (.mk [.mk ["o"] (.selectorExpr (.ident "glib") "Object")])
                        none }] }).isSome = true := by decide
  obtain ⟨e, he⟩ := Option.isSome_iff_exists.1 hs
  have h := exportInterface_import_lines (fun _ => false) "Button" _ e he
  have hi : (exportInterface (fun _ => false) "Button"
        { name := "Button", definition := none,
          parents := [.selectorExpr (.ident "gtk") "Widget"],
          funcs := [{ recv := none, name := "Bind",
                      type := .mk (.mk [.mk ["o"] (.selectorExpr (.ident "glib") "Object")])
                        none }] }).map (fun e => e.imports)
      = some ["gtk_iface", "glib_iface"] := by decide
  rw [he] at hi
  simp only [Option.map_some', Option.some.injEq] at hi
  exact ⟨e, he, h.1, hi, h.2.2.1⟩

end GotkGen
